import Mathlib

/-!
# Verification of the gemini-router adaptive routing engine

This development embeds the routing-relevant core of `gemini_router.py`
(metrics windows, derived metrics, multi-tier assignment, candidate-order
construction, and the credential/backend fallback walk of `route_request`)
as executable Lean definitions, and proves the specification's claims about
them.  Python floats are modelled by exact rationals extended with an
infinity point (`Flt`), machine effects (remote calls, clock, persistence)
by an explicit oracle and an event trace.
-/

namespace GeminiRouter

/-- A Python float value as used by the router: either a finite rational or
`inf` (produced by `float("inf")` for backends with no positive latency
sample).  `nan` never arises in the embedded code paths. -/
inductive Flt where
  | inf : Flt
  | val : ℚ → Flt
deriving DecidableEq, Repr

/-- The `<=` used (via the stable sort) on float keys: everything is `<=` inf,
`inf <= finite` is false, finite values compare as rationals. -/
def Flt.le : Flt → Flt → Bool
  | _, .inf => true
  | .inf, .val _ => false
  | .val a, .val b => decide (a ≤ b)

/-- One stats entry, `{"success": 0|1, "latency": float, "max_tokens": int}`
as appended by `call_model` / `test_model_async`. -/
structure ProbeRec where
  success : ℕ
  latency : ℚ
  max_tokens : ℕ
deriving DecidableEq, Repr

/-- The stats store: `model -> window of records`, a Python dict modelled as
an insertion-ordered association list. -/
abbrev Stats := List (String × List ProbeRec)

/-- The cooldown store: `model -> absolute expiry time`. -/
abbrev Cooldowns := List (String × ℚ)

/-- `ROLLING_WINDOW = 20` in the source. -/
def ROLLING_WINDOW : ℕ := 20

/-- `COOLDOWN_SECS = 60` in the source. -/
def COOLDOWN_SECS : ℚ := 60

/-- Dict lookup (`d[m]` / `m in d`), first matching key. -/
def assocGet (m : String) : List (String × α) → Option α
  | [] => none
  | p :: ps => if p.1 = m then some p.2 else assocGet m ps

/-- Appending one record to a `deque(maxlen=ROLLING_WINDOW)`: the record goes
to the right and elements are dropped from the left while over capacity. -/
def windowAppend (l : List ProbeRec) (r : ProbeRec) : List ProbeRec :=
  (l ++ [r]).drop ((l ++ [r]).length - ROLLING_WINDOW)

/-- `deque(entries, maxlen=ROLLING_WINDOW)` keeps the last `ROLLING_WINDOW`
entries of `entries`. -/
def loadWindow (es : List ProbeRec) : List ProbeRec :=
  es.drop (es.length - ROLLING_WINDOW)

/-- `load_stats`: read the raw persisted mapping and rebuild each window as a
`deque(entries, maxlen=ROLLING_WINDOW)`. -/
def load_stats (raw : Stats) : Stats :=
  raw.map (fun p => (p.1, loadWindow p.2))

/-- `stats[model].append(rec)` on the defaultdict of deques: append into the
existing window, or create a fresh entry (inserted at the end, as a dict
does) when the model is absent. -/
def statsAppend (s : Stats) (m : String) (r : ProbeRec) : Stats :=
  if (assocGet m s).isSome then
    s.map (fun p => if p.1 = m then (p.1, windowAppend p.2 r) else p)
  else s ++ [(m, windowAppend [] r)]

/-- `cooldowns[model] = e`: overwrite in place, or insert at the end. -/
def setAssoc (c : Cooldowns) (m : String) (e : ℚ) : Cooldowns :=
  if (assocGet m c).isSome then
    c.map (fun p => if p.1 = m then (p.1, e) else p)
  else c ++ [(m, e)]

/-- The derived per-backend metric of `assign_multi_tiers`. -/
structure Metric where
  latency : Flt
  max_tokens : ℕ
  success_rate : ℚ
deriving DecidableEq, Repr

/-- The metrics computation of `assign_multi_tiers` for one backend window:
empty window gives `{inf, 0, 0}`; otherwise success rate is the sum of the
`success` fields over the count, average latency the mean of the strictly
positive latencies (`inf` when there are none), and `max_tokens` the maximum
over the window. -/
def computeMetric : List ProbeRec → Metric
  | [] => ⟨Flt.inf, 0, 0⟩
  | e :: es =>
    let entries := e :: es
    let successes := (entries.map (fun r => r.success)).sum
    let total := entries.length
    let success_rate : ℚ := (successes : ℚ) / (total : ℚ)
    let latencies := (entries.filter (fun r => decide (0 < r.latency))).map (fun r => r.latency)
    let avg_latency : Flt :=
      if latencies.isEmpty then Flt.inf
      else Flt.val (latencies.sum / (latencies.length : ℚ))
    let maxtok := (entries.map (fun r => r.max_tokens)).foldr max 0
    ⟨avg_latency, maxtok, success_rate⟩

/-- The blended sort key
`(1 - success_rate)*1000 + latency - max_tokens*0.1`; it is `inf` exactly
when the average latency is `inf`. -/
def scoreOf (mt : Metric) : Flt :=
  match mt.latency with
  | Flt.inf => Flt.inf
  | Flt.val a => Flt.val ((1 - mt.success_rate) * 1000 + a - (mt.max_tokens : ℚ) / 10)

/-- Stable insertion of `x` into a sorted list: `x` goes before the first
element it is `le` to, hence after all earlier-inserted equals. -/
def insSorted (le : α → α → Bool) (x : α) : List α → List α
  | [] => [x]
  | y :: ys => if le x y then x :: y :: ys else y :: insSorted le x ys

/-- Stable sort (same result as Python's stable `sorted` for a total
preorder key). -/
def sortedBy (le : α → α → Bool) : List α → List α
  | [] => []
  | x :: xs => insSorted le x (sortedBy le xs)

/-- The tier letter for 0-indexed rank `i` in a ranking of length `n`:
`i < 0.2*n` gives S, `i < 0.5*n` gives A, `i < 0.8*n` gives B, else C,
by direct comparison. -/
def tierOf (i n : ℕ) : String :=
  if (i : ℚ) < (n : ℚ) * (2 / 10) then "S"
  else if (i : ℚ) < (n : ℚ) * (5 / 10) then "A"
  else if (i : ℚ) < (n : ℚ) * (8 / 10) then "B"
  else "C"

/-- `tier_rank`: map each backend of a ranking to its rank-position tier. -/
def tier_rank (rank_list : List (String × Metric)) : List (String × String) :=
  rank_list.enum.map (fun p => (p.2.1, tierOf p.1 rank_list.length))

/-- The three tier letters of one backend. -/
structure Tiers where
  fast : String
  quality : String
  balance : String
deriving DecidableEq, Repr

/-- Sort key comparison for `fast_rank` (ascending average latency). -/
def fastKeyLe (a b : String × Metric) : Bool :=
  Flt.le a.2.latency b.2.latency

/-- Sort key comparison for `quality_rank` (descending `max_tokens`,
via the negated key of the source). -/
def qualityKeyLe (a b : String × Metric) : Bool :=
  decide ((-(a.2.max_tokens : ℤ)) ≤ (-(b.2.max_tokens : ℤ)))

/-- Sort key comparison for `balance_rank` (ascending blended score). -/
def balanceKeyLe (a b : String × Metric) : Bool :=
  Flt.le (scoreOf a.2) (scoreOf b.2)

/-- `assign_multi_tiers`: compute metrics in stats order, build the three
stable rankings, and return, in stats order, each backend's three letters. -/
def assign_multi_tiers (stats : Stats) : List (String × Tiers) :=
  let metrics : List (String × Metric) := stats.map (fun p => (p.1, computeMetric p.2))
  let fast_rank := sortedBy fastKeyLe metrics
  let quality_rank := sortedBy qualityKeyLe metrics
  let balance_rank := sortedBy balanceKeyLe metrics
  stats.map (fun p =>
    (p.1, ⟨(assocGet p.1 (tier_rank fast_rank)).getD "",
           (assocGet p.1 (tier_rank quality_rank)).getD "",
           (assocGet p.1 (tier_rank balance_rank)).getD ""⟩))

/-- The candidates contributed by the lock: `if state.get("lock")` is a
truthiness test, so `None` and the empty string contribute nothing. -/
def lockList : Option String → List String
  | none => []
  | some s => if s = "" then [] else [s]

/-- The candidate-order construction of `route_request`: the locked backend
first, then for each tier S, A, B, C in turn the backends of that blended
tier in `multi_tiers` iteration order, skipping anything already placed. -/
def buildOrder (lock : Option String) (mt : List (String × Tiers)) : List String :=
  (["S", "A", "B", "C"]).foldl
    (fun ord tier =>
      ord ++ (mt.filter (fun p => p.2.balance == tier && !(ord.contains p.1))).map Prod.fst)
    (lockList lock)

/-- Outcome of one remote invocation `call_model(model, key, prompt)`:
either a successful response (reported capacity plus text) or any raised
exception. -/
inductive CallResult where
  | ok (max_tokens : ℕ) (text : String)
  | err
deriving DecidableEq, Repr

/-- The external world of one routing call: the outcome of invoking each
(model, key) pair with the caller's prompt, and the wall-clock duration that
invocation takes (the measured latency on success). -/
structure Oracle where
  result : String → String → CallResult
  dur : String → String → ℚ

/-- Observable events of a routing call, in order: the per-backend cooldown
check (recording the stored expiry at that moment), each remote attempt,
and each persistence of the stats or cooldown stores (with the value
written). -/
inductive Ev where
  | check (model : String) (t : ℚ) (expiry : Option ℚ)
  | attempt (model : String) (key : String) (t : ℚ)
  | saveStats (s : Stats)
  | saveCooldowns (c : Cooldowns)
deriving DecidableEq, Repr

/-- The result of `route_request`: a successful routing, exhaustion
(`RuntimeError("No available model worked")`), or the `get_api_keys` failure
when no credential exists. -/
inductive RouteResult where
  | success (model : String) (latency : ℚ) (max_tokens : ℕ) (response : String)
  | noBackend
  | noCredentials
deriving DecidableEq, Repr

/-- State after the credential loop over one backend. -/
structure StepRes where
  evs : List Ev
  t : ℚ
  stats : Stats
  cds : Cooldowns
  res : Option (ℚ × ℕ × String)
deriving DecidableEq, Repr

/-- The inner credential loop of `route_request` for one backend: try each
key in order; a success appends `{success:1, latency, max_tokens}` to the
backend's window, persists the stats and stops; a failure sets the
backend's cooldown to the post-call time plus `COOLDOWN_SECS`, persists the
cooldowns and continues with the next key. -/
def tryKeys (orc : Oracle) (model : String) :
    List String → ℚ → Stats → Cooldowns → StepRes
  | [], t, s, c => ⟨[], t, s, c, none⟩
  | k :: ks, t, s, c =>
    let d := orc.dur model k
    match orc.result model k with
    | CallResult.ok cap text =>
      let s2 := statsAppend s model ⟨1, d, cap⟩
      ⟨[Ev.attempt model k t, Ev.saveStats s2], t + d, s2, c, some (d, cap, text)⟩
    | CallResult.err =>
      let c2 := setAssoc c model (t + d + COOLDOWN_SECS)
      let r := tryKeys orc model ks (t + d) s c2
      ⟨Ev.attempt model k t :: Ev.saveCooldowns c2 :: r.evs, r.t, r.stats, r.cds, r.res⟩

/-- `model in cooldowns and time.time() < cooldowns[model]`. -/
def isCooling (c : Cooldowns) (m : String) (t : ℚ) : Bool :=
  match assocGet m c with
  | some e => decide (t < e)
  | none => false

/-- Final state of the candidate walk. -/
structure WalkRes where
  evs : List Ev
  res : RouteResult
  stats : Stats
  cds : Cooldowns
deriving DecidableEq, Repr

/-- The candidate walk of `route_request`: for each backend in order, skip
it when its cooldown is active at the moment it is reached, otherwise run
the credential loop; the first success returns immediately, otherwise the
walk continues and ends in `noBackend`. -/
def walk (orc : Oracle) (keys : List String) :
    List String → ℚ → Stats → Cooldowns → WalkRes
  | [], _, s, c => ⟨[], RouteResult.noBackend, s, c⟩
  | m :: ms, t, s, c =>
    if isCooling c m t then
      let r := walk orc keys ms t s c
      ⟨Ev.check m t (assocGet m c) :: r.evs, r.res, r.stats, r.cds⟩
    else
      let a := tryKeys orc m keys t s c
      match a.res with
      | some (lat, cap, text) =>
        ⟨Ev.check m t (assocGet m c) :: a.evs, RouteResult.success m lat cap text,
          a.stats, a.cds⟩
      | none =>
        let r := walk orc keys ms a.t a.stats a.cds
        ⟨Ev.check m t (assocGet m c) :: (a.evs ++ r.evs), r.res, r.stats, r.cds⟩

/-- `route_request(prompt)`: load the credentials (failing without them),
the stats, the lock and the cooldowns, assign tiers, build the candidate
order and walk it starting at time `t0`. -/
def route_request (orc : Oracle) (keys : List String) (raw : Stats)
    (lock : Option String) (cds : Cooldowns) (t0 : ℚ) : WalkRes :=
  if keys = [] then ⟨[], RouteResult.noCredentials, load_stats raw, cds⟩
  else
    walk orc keys (buildOrder lock (assign_multi_tiers (load_stats raw)))
      t0 (load_stats raw) cds

/-- The credentials tried on backend `m`, in trace order. -/
def attemptsOn (m : String) (evs : List Ev) : List String :=
  evs.filterMap (fun e =>
    match e with
    | Ev.attempt m2 k _ => if m2 = m then some k else none
    | _ => none)

/-- The (backend, credential) pairs attempted, in trace order. -/
def attemptPairs (evs : List Ev) : List (String × String) :=
  evs.filterMap (fun e =>
    match e with
    | Ev.attempt m k _ => some (m, k)
    | _ => none)

/-- Every failed attempt is immediately followed by a cooldown persist whose
entry for the failed backend is the post-call time plus `COOLDOWN_SECS`. -/
def FailFollowed (orc : Oracle) (evs : List Ev) : Prop :=
  ∀ i m k t, evs.get? i = some (Ev.attempt m k t) →
    orc.result m k = CallResult.err →
    ∃ cd, evs.get? (i + 1) = some (Ev.saveCooldowns cd) ∧
      assocGet m cd = some (t + orc.dur m k + COOLDOWN_SECS)

/-! ## Window lemmas (C7) -/

lemma windowAppend_length (l : List ProbeRec) (r : ProbeRec) :
    (windowAppend l r).length = min (l.length + 1) ROLLING_WINDOW := by
  have hRW : ROLLING_WINDOW = 20 := rfl
  simp [windowAppend]
  omega

lemma foldl_windowAppend (rs : List ProbeRec) :
    ∀ a : List ProbeRec, a.length ≤ ROLLING_WINDOW →
      rs.foldl windowAppend a = (a ++ rs).drop (a.length + rs.length - ROLLING_WINDOW) := by
  induction rs with
  | nil =>
    intro a ha
    have hRW : ROLLING_WINDOW = 20 := rfl
    have h0 : a.length + ([] : List ProbeRec).length - ROLLING_WINDOW = 0 := by
      simp
      omega
    rw [List.foldl_nil, h0, List.drop_zero, List.append_nil]
  | cons r rs ih =>
    intro a ha
    have hRW : ROLLING_WINDOW = 20 := rfl
    have hb : (windowAppend a r).length = min (a.length + 1) ROLLING_WINDOW :=
      windowAppend_length a r
    have hd : windowAppend a r = (a ++ [r]).drop (a.length + 1 - ROLLING_WINDOW) := by
      unfold windowAppend
      congr 1
      simp
    rw [List.foldl_cons, ih (windowAppend a r) (by omega), hd, List.length_drop]
    rw [← List.drop_append_of_le_length (by simp), List.drop_drop]
    rw [List.append_assoc, List.singleton_append]
    congr 1
    simp
    omega

/-- C7: a backend's window never exceeds `ROLLING_WINDOW = 20` records:
below capacity, append just adds at the right; at capacity, append evicts
exactly the oldest record; 21 sequential appends starting from an empty
window leave exactly the last 20 records in insertion order; loading
truncates to the window bound, and the bound is preserved by the store's
only mutation, `statsAppend`. -/
theorem window_bound_fifo :
    (∀ (l : List ProbeRec) (r : ProbeRec), l.length ≤ ROLLING_WINDOW →
      (windowAppend l r).length ≤ ROLLING_WINDOW) ∧
    (∀ (l : List ProbeRec) (r : ProbeRec), l.length < ROLLING_WINDOW →
      windowAppend l r = l ++ [r]) ∧
    (∀ (l : List ProbeRec) (r : ProbeRec), l.length = ROLLING_WINDOW →
      windowAppend l r = l.tail ++ [r]) ∧
    (∀ rs : List ProbeRec, rs.length = ROLLING_WINDOW + 1 →
      rs.foldl windowAppend [] = rs.tail) ∧
    (∀ raw : Stats, ∀ p ∈ load_stats raw, p.2.length ≤ ROLLING_WINDOW) ∧
    (∀ (s : Stats) (m : String) (r : ProbeRec),
      (∀ p ∈ s, p.2.length ≤ ROLLING_WINDOW) →
      ∀ p ∈ statsAppend s m r, p.2.length ≤ ROLLING_WINDOW) := by
  refine ⟨?_, ?_, ?_, ?_, ?_, ?_⟩
  · intro l r h
    rw [windowAppend_length]
    omega
  · intro l r h
    unfold windowAppend
    have h0 : (l ++ [r]).length - ROLLING_WINDOW = 0 := by
      simp
      omega
    rw [h0, List.drop_zero]
  · intro l r h
    have hRW : ROLLING_WINDOW = 20 := rfl
    unfold windowAppend
    have h1 : (l ++ [r]).length - ROLLING_WINDOW = 1 := by
      simp [h]
    rw [h1, List.drop_append_of_le_length (by omega), List.drop_one]
  · intro rs h
    have hRW : ROLLING_WINDOW = 20 := rfl
    rw [foldl_windowAppend rs [] (by simp)]
    have h1 : ([] : List ProbeRec).length + rs.length - ROLLING_WINDOW = 1 := by
      simp [h]
    rw [h1, List.nil_append, List.drop_one]
  · intro raw p hp
    have hRW : ROLLING_WINDOW = 20 := rfl
    simp only [load_stats, List.mem_map] at hp
    obtain ⟨q, _, rfl⟩ := hp
    simp [loadWindow]
    omega
  · intro s m r hs p hp
    by_cases hmem : (assocGet m s).isSome
    · simp only [statsAppend, if_pos hmem, List.mem_map] at hp
      obtain ⟨q, hq, rfl⟩ := hp
      by_cases hqm : q.1 = m
      · simp only [if_pos hqm]
        rw [windowAppend_length]
        omega
      · simp only [if_neg hqm]
        exact hs q hq
    · simp only [statsAppend, if_neg hmem, List.mem_append, List.mem_singleton] at hp
      rcases hp with hp | hp
      · exact hs p hp
      · subst hp
        rw [windowAppend_length]
        simp

/-- Witness for C7 at `ROLLING_WINDOW`-sized concrete inputs. -/
theorem window_bound_fifo_witness :
    windowAppend (List.replicate ROLLING_WINDOW (⟨1, 1, 0⟩ : ProbeRec)) ⟨0, 0, 0⟩
      = (List.replicate ROLLING_WINDOW (⟨1, 1, 0⟩ : ProbeRec)).tail ++ [⟨0, 0, 0⟩] ∧
    ((⟨0, 5, 7⟩ : ProbeRec) :: List.replicate ROLLING_WINDOW (⟨1, 1, 0⟩ : ProbeRec)).foldl
        windowAppend []
      = ((⟨0, 5, 7⟩ : ProbeRec) :: List.replicate ROLLING_WINDOW (⟨1, 1, 0⟩ : ProbeRec)).tail :=
  ⟨window_bound_fifo.2.2.1 _ _ (by decide),
   window_bound_fifo.2.2.2.1 _ (by decide)⟩

/-! ## Tier-rank lemmas (C5) -/

lemma tierOf_cases (i n : ℕ) :
    tierOf i n = "S" ∨ tierOf i n = "A" ∨ tierOf i n = "B" ∨ tierOf i n = "C" := by
  unfold tierOf
  split
  · exact Or.inl rfl
  · split
    · exact Or.inr (Or.inl rfl)
    · split
      · exact Or.inr (Or.inr (Or.inl rfl))
      · exact Or.inr (Or.inr (Or.inr rfl))

lemma cast_lt_mul_frac (i n a b : ℕ) (hb : 0 < b) :
    ((i : ℚ) < (n : ℚ) * ((a : ℚ) / (b : ℚ))) ↔ i * b < n * a := by
  rw [← mul_div_assoc, lt_div_iff (by exact_mod_cast hb : (0 : ℚ) < (b : ℚ))]
  constructor
  · intro h; exact_mod_cast h
  · intro h; exact_mod_cast h

lemma tierOf_nat (i n : ℕ) :
    tierOf i n =
      (if 5 * i < n then "S"
       else if 2 * i < n then "A"
       else if 5 * i < 4 * n then "B" else "C") := by
  have h2 : ((i : ℚ) < (n : ℚ) * (2 / 10)) ↔ 5 * i < n := by
    rw [show ((2 : ℚ) / 10) = ((2 : ℕ) : ℚ) / ((10 : ℕ) : ℚ) by norm_num,
      cast_lt_mul_frac i n 2 10 (by omega)]
    omega
  have h5 : ((i : ℚ) < (n : ℚ) * (5 / 10)) ↔ 2 * i < n := by
    rw [show ((5 : ℚ) / 10) = ((5 : ℕ) : ℚ) / ((10 : ℕ) : ℚ) by norm_num,
      cast_lt_mul_frac i n 5 10 (by omega)]
    omega
  have h8 : ((i : ℚ) < (n : ℚ) * (8 / 10)) ↔ 5 * i < 4 * n := by
    rw [show ((8 : ℚ) / 10) = ((8 : ℕ) : ℚ) / ((10 : ℕ) : ℚ) by norm_num,
      cast_lt_mul_frac i n 8 10 (by omega)]
    omega
  simp only [tierOf, h2, h5, h8]

/-- C5: `tier_rank` keeps the backends of the ranking, in order, and gives
the backend at 0-indexed rank `i` of a ranking of length `n` the single
letter S when `i < 0.2*n`, else A when `i < 0.5*n`, else B when
`i < 0.8*n`, else C, by direct comparison with the exact thresholds
(equivalently `5*i < n`, `2*i < n`, `5*i < 4*n` over the integers); so the
four tiers partition the ranked backend set. -/
theorem tier_rank_partition (rl : List (String × Metric)) :
    (tier_rank rl).map Prod.fst = rl.map Prod.fst ∧
    (∀ p ∈ tier_rank rl, p.2 = "S" ∨ p.2 = "A" ∨ p.2 = "B" ∨ p.2 = "C") ∧
    (∀ i m mt, rl.get? i = some (m, mt) →
      (tier_rank rl).get? i = some (m,
        if 5 * i < rl.length then "S"
        else if 2 * i < rl.length then "A"
        else if 5 * i < 4 * rl.length then "B" else "C")) := by
  refine ⟨?_, ?_, ?_⟩
  · apply List.ext_get?
    intro n
    simp only [List.get?_map, tier_rank, List.get?_enum]
    cases rl.get? n <;> simp
  · intro p hp
    simp only [tier_rank, List.mem_map] at hp
    obtain ⟨q, _, rfl⟩ := hp
    exact tierOf_cases _ _
  · intro i m mt h
    simp only [tier_rank, List.get?_map, List.get?_enum, h, Option.map_some']
    rw [tierOf_nat]

/-- Witness for C5 on a concrete five-element ranking. -/
theorem tier_rank_partition_witness :
    (tier_rank [("a", ⟨Flt.val 1, 0, 1⟩), ("b", ⟨Flt.val 2, 0, 1⟩),
      ("c", ⟨Flt.val 3, 0, 1⟩), ("d", ⟨Flt.val 4, 0, 1⟩),
      ("e", ⟨Flt.val 5, 0, 1⟩)]).get? 2 = some ("c",
        if 5 * 2 < (5 : ℕ) then "S"
        else if 2 * 2 < (5 : ℕ) then "A"
        else if 5 * 2 < 4 * (5 : ℕ) then "B" else "C") := by
  have h := (tier_rank_partition [("a", ⟨Flt.val 1, 0, 1⟩), ("b", ⟨Flt.val 2, 0, 1⟩),
    ("c", ⟨Flt.val 3, 0, 1⟩), ("d", ⟨Flt.val 4, 0, 1⟩),
    ("e", ⟨Flt.val 5, 0, 1⟩)]).2.2 2 "c" ⟨Flt.val 3, 0, 1⟩ (by decide)
  simpa using h

/-! ## Derived-metric lemmas (C6) -/

lemma sum_success_countP (w : List ProbeRec) (h : ∀ r ∈ w, r.success ≤ 1) :
    (w.map (fun r => (r.success : ℚ))).sum = ((w.countP (fun r => r.success == 1) : ℕ) : ℚ) := by
  induction w with
  | nil => simp
  | cons e es ih =>
    have he : e.success ≤ 1 := h e (by simp)
    have hes : ∀ r ∈ es, r.success ≤ 1 := fun r hr => h r (by simp [hr])
    rw [List.map_cons, List.sum_cons, List.countP_cons, ih hes]
    rcases Nat.le_one_iff_eq_zero_or_eq_one.mp he with h0 | h1
    · simp [h0]
    · simp [h1]
      ring

lemma foldr_max_mem_nat : ∀ l : List ℕ, l ≠ [] → l.foldr max 0 ∈ l := by
  intro l
  induction l with
  | nil => intro h; exact absurd rfl h
  | cons x xs ih =>
    intro _
    cases xs with
    | nil => simp
    | cons y ys =>
      have hmem := ih (by simp)
      rcases max_choice x ((y :: ys).foldr max 0) with hc | hc
      · simp only [List.foldr_cons] at hc ⊢
        rw [hc]
        exact List.mem_cons_self _ _
      · simp only [List.foldr_cons] at hc ⊢
        rw [hc]
        exact List.mem_cons_of_mem _ hmem

lemma le_foldr_max (l : List ProbeRec) (r : ProbeRec) (hr : r ∈ l) :
    r.max_tokens ≤ (l.map (fun x => x.max_tokens)).foldr max 0 := by
  induction l with
  | nil => simp at hr
  | cons f fs ih =>
    rcases List.mem_cons.mp hr with h | h
    · simp only [List.map_cons, List.foldr_cons, h]
      exact le_max_left _ _
    · simp only [List.map_cons, List.foldr_cons]
      exact le_trans (ih h) (le_max_right _ _)

lemma computeMetric_cons (e : ProbeRec) (es : List ProbeRec) :
    computeMetric (e :: es) =
      ⟨(if (((e :: es).filter (fun r => decide (0 < r.latency))).map
            (fun r => r.latency)).isEmpty then Flt.inf
        else Flt.val
          ((((e :: es).filter (fun r => decide (0 < r.latency))).map (fun r => r.latency)).sum
            / ((((e :: es).filter (fun r => decide (0 < r.latency))).map
                (fun r => r.latency)).length : ℚ))),
       ((e :: es).map (fun r => r.max_tokens)).foldr max 0,
       ((e :: es).map (fun r => (r.success : ℚ))).sum / (((e :: es).length : ℕ) : ℚ)⟩ := by
  simp only [computeMetric]

/-- C6: the derived metrics of a window are: success rate = successes over
total (each record counting its 0/1 success flag), average latency the mean
of the strictly positive latencies or `inf` when none exists, maximum
capacity the largest `max_tokens` of the window (0 when empty), blended
score `(1 - success_rate)*1000 + avg_latency - max_capacity*0.1`; and on
the window [{1, 1.0, 100}, {1, 3.0, 50}] they evaluate to average latency
2.0, capacity 100, success rate 1 and blended score -8. -/
theorem derived_metric_props :
    computeMetric [] = ⟨Flt.inf, 0, 0⟩ ∧
    (∀ w : List ProbeRec, w ≠ [] →
      ((∀ r ∈ w, r.success ≤ 1) →
        (computeMetric w).success_rate
          = ((w.countP (fun r => r.success == 1) : ℕ) : ℚ) / ((w.length : ℕ) : ℚ)) ∧
      ((computeMetric w).latency = Flt.inf ↔ ∀ r ∈ w, r.latency ≤ 0) ∧
      (∀ L, L = w.filter (fun r => decide (0 < r.latency)) → L ≠ [] →
        (computeMetric w).latency
          = Flt.val ((L.map (fun r => r.latency)).sum / ((L.length : ℕ) : ℚ))) ∧
      (∀ r ∈ w, r.max_tokens ≤ (computeMetric w).max_tokens) ∧
      (∃ r ∈ w, (computeMetric w).max_tokens = r.max_tokens)) ∧
    (∀ (mt : Metric) (a : ℚ), mt.latency = Flt.val a →
      scoreOf mt = Flt.val ((1 - mt.success_rate) * 1000 + a - (mt.max_tokens : ℚ) * (1 / 10))) ∧
    (∀ mt : Metric, mt.latency = Flt.inf → scoreOf mt = Flt.inf) ∧
    computeMetric [⟨1, 1, 100⟩, ⟨1, 3, 50⟩] = ⟨Flt.val 2, 100, 1⟩ ∧
    scoreOf (computeMetric [⟨1, 1, 100⟩, ⟨1, 3, 50⟩]) = Flt.val (-8) := by
  have hpos1 : (decide ((0 : ℚ) < 1)) = true := by norm_num
  have hpos3 : (decide ((0 : ℚ) < 3)) = true := by norm_num
  have hex : computeMetric [⟨1, 1, 100⟩, ⟨1, 3, 50⟩] = ⟨Flt.val 2, 100, 1⟩ := by
    rw [computeMetric_cons]
    simp only [List.filter_cons, List.filter_nil, hpos1, hpos3, if_true,
      List.map_cons, List.map_nil, List.sum_cons, List.sum_nil, List.foldr_cons,
      List.foldr_nil, List.isEmpty_cons, List.length_cons, List.length_nil]
    norm_num
  have hsc : scoreOf (computeMetric [⟨1, 1, 100⟩, ⟨1, 3, 50⟩]) = Flt.val (-8) := by
    rw [hex]
    simp only [scoreOf]
    norm_num
  refine ⟨rfl, ?_, ?_, ?_, hex, hsc⟩
  · intro w hw
    obtain ⟨e, es, rfl⟩ := List.exists_cons_of_ne_nil hw
    refine ⟨?_, ?_, ?_, ?_, ?_⟩
    · intro hs
      rw [computeMetric_cons]
      simp only
      rw [sum_success_countP _ hs]
    · rw [computeMetric_cons]
      simp only
      split
      · rename_i hemp
        simp only [List.isEmpty_iff, List.map_eq_nil, List.filter_eq_nil] at hemp
        simp only [true_iff]
        intro r hr
        have := hemp r hr
        simpa using this
      · rename_i hemp
        simp only [List.isEmpty_iff, List.map_eq_nil, List.filter_eq_nil] at hemp
        push_neg at hemp
        obtain ⟨r, hr, hpos⟩ := hemp
        simp only [decide_eq_true_eq] at hpos
        constructor
        · intro hval
          exact absurd hval (by simp)
        · intro hall
          exact absurd (hall r hr) (by simpa using hpos)
    · intro L hL hLne
      rw [computeMetric_cons]
      simp only
      rw [← hL]
      rw [if_neg (by simpa [List.isEmpty_iff, List.map_eq_nil] using hLne)]
      rw [List.length_map]
    · intro r hr
      rw [computeMetric_cons]
      exact le_foldr_max _ r hr
    · rw [computeMetric_cons]
      simp only
      have hmem := foldr_max_mem_nat ((e :: es).map (fun r => r.max_tokens)) (by simp)
      rw [List.mem_map] at hmem
      obtain ⟨r, hr, hval⟩ := hmem
      exact ⟨r, hr, hval.symm⟩
  · intro mt a h
    obtain ⟨lat, mtk, sr⟩ := mt
    simp only at h
    subst h
    simp only [scoreOf]
    congr 1
    ring
  · intro mt h
    obtain ⟨lat, mtk, sr⟩ := mt
    simp only at h
    subst h
    rfl

/-- Witness for C6 at the spec's example window. -/
theorem derived_metric_props_witness :
    (computeMetric [⟨1, 1, 100⟩, ⟨1, 3, 50⟩]).success_rate
      = ((([⟨1, 1, 100⟩, ⟨1, 3, 50⟩] : List ProbeRec).countP
          (fun r => r.success == 1) : ℕ) : ℚ)
        / ((([⟨1, 1, 100⟩, ⟨1, 3, 50⟩] : List ProbeRec).length : ℕ) : ℚ) :=
  (derived_metric_props.2.1 [⟨1, 1, 100⟩, ⟨1, 3, 50⟩] (by decide)).1 (by decide)

/-! ## Store and trace helpers -/

lemma assocGet_setAssoc (c : Cooldowns) (m : String) (e : ℚ) :
    assocGet m (setAssoc c m e) = some e := by
  unfold setAssoc
  split
  · rename_i hsome
    induction c with
    | nil => simp [assocGet] at hsome
    | cons p ps ih =>
      by_cases hp : p.1 = m
      · simp [assocGet, hp]
      · simp only [assocGet, if_neg hp] at hsome
        simp only [List.map_cons, if_neg hp, assocGet, if_neg hp]
        exact ih hsome
  · rename_i hnone
    simp only [Option.isSome_iff_exists, not_exists] at hnone
    have h0 : assocGet m c = none := by
      cases h : assocGet m c with
      | none => rfl
      | some v => exact absurd h (by intro hh; exact hnone v hh)
    clear hnone
    induction c with
    | nil => simp [assocGet]
    | cons p ps ih =>
      by_cases hp : p.1 = m
      · simp [assocGet, hp] at h0
      · simp only [assocGet, if_neg hp] at h0
        simp only [List.cons_append, assocGet, if_neg hp]
        exact ih h0

lemma attemptsOn_append (m : String) (a b : List Ev) :
    attemptsOn m (a ++ b) = attemptsOn m a ++ attemptsOn m b := by
  simp [attemptsOn]

lemma attemptPairs_append (a b : List Ev) :
    attemptPairs (a ++ b) = attemptPairs a ++ attemptPairs b := by
  simp [attemptPairs]

lemma attemptsOn_cons_self (m k : String) (t : ℚ) (evs : List Ev) :
    attemptsOn m (Ev.attempt m k t :: evs) = k :: attemptsOn m evs := by
  simp [attemptsOn]

lemma attemptsOn_cons_other (m m2 k : String) (t : ℚ) (evs : List Ev) (h : ¬ m2 = m) :
    attemptsOn m (Ev.attempt m2 k t :: evs) = attemptsOn m evs := by
  simp [attemptsOn, h]

lemma attemptsOn_cons_check (m m2 : String) (t : ℚ) (e : Option ℚ) (evs : List Ev) :
    attemptsOn m (Ev.check m2 t e :: evs) = attemptsOn m evs := by
  simp [attemptsOn]

lemma attemptsOn_cons_saveStats (m : String) (s1 : Stats) (evs : List Ev) :
    attemptsOn m (Ev.saveStats s1 :: evs) = attemptsOn m evs := by
  simp [attemptsOn]

lemma attemptsOn_cons_saveCooldowns (m : String) (c1 : Cooldowns) (evs : List Ev) :
    attemptsOn m (Ev.saveCooldowns c1 :: evs) = attemptsOn m evs := by
  simp [attemptsOn]

/-! ## Credential-loop lemmas -/

lemma tryKeys_nil (orc : Oracle) (model : String) (t : ℚ) (s : Stats) (c : Cooldowns) :
    tryKeys orc model [] t s c = ⟨[], t, s, c, none⟩ := rfl

lemma tryKeys_cons_ok (orc : Oracle) (model k : String) (ks : List String) (t : ℚ)
    (s : Stats) (c : Cooldowns) (cap : ℕ) (text : String)
    (h : orc.result model k = CallResult.ok cap text) :
    tryKeys orc model (k :: ks) t s c =
      ⟨[Ev.attempt model k t, Ev.saveStats (statsAppend s model ⟨1, orc.dur model k, cap⟩)],
       t + orc.dur model k, statsAppend s model ⟨1, orc.dur model k, cap⟩, c,
       some (orc.dur model k, cap, text)⟩ := by
  simp [tryKeys, h]

lemma tryKeys_cons_err (orc : Oracle) (model k : String) (ks : List String) (t : ℚ)
    (s : Stats) (c : Cooldowns)
    (h : orc.result model k = CallResult.err) :
    tryKeys orc model (k :: ks) t s c =
      ⟨Ev.attempt model k t ::
         Ev.saveCooldowns (setAssoc c model (t + orc.dur model k + COOLDOWN_SECS)) ::
         (tryKeys orc model ks (t + orc.dur model k) s
           (setAssoc c model (t + orc.dur model k + COOLDOWN_SECS))).evs,
       (tryKeys orc model ks (t + orc.dur model k) s
         (setAssoc c model (t + orc.dur model k + COOLDOWN_SECS))).t,
       (tryKeys orc model ks (t + orc.dur model k) s
         (setAssoc c model (t + orc.dur model k + COOLDOWN_SECS))).stats,
       (tryKeys orc model ks (t + orc.dur model k) s
         (setAssoc c model (t + orc.dur model k + COOLDOWN_SECS))).cds,
       (tryKeys orc model ks (t + orc.dur model k) s
         (setAssoc c model (t + orc.dur model k + COOLDOWN_SECS))).res⟩ := by
  simp [tryKeys, h]

lemma tryKeys_attempt_mem (orc : Oracle) (model : String) :
    ∀ (ks : List String) (t : ℚ) (s : Stats) (c : Cooldowns) (m2 k2 : String) (t2 : ℚ),
      Ev.attempt m2 k2 t2 ∈ (tryKeys orc model ks t s c).evs → m2 = model ∧ k2 ∈ ks := by
  intro ks
  induction ks with
  | nil => intro t s c m2 k2 t2 h; simp [tryKeys_nil] at h
  | cons k ks ih =>
    intro t s c m2 k2 t2 h
    cases hres : orc.result model k with
    | ok cap text =>
      rw [tryKeys_cons_ok orc model k ks t s c cap text hres] at h
      simp only [List.mem_cons, List.mem_singleton] at h
      rcases h with h | h | h
      · injection h with h1 h2 h3
        exact ⟨h1, by simp [h2]⟩
      · cases h
      · simp at h
    | err =>
      rw [tryKeys_cons_err orc model k ks t s c hres] at h
      simp only [List.mem_cons] at h
      rcases h with h | h | h
      · injection h with h1 h2 h3
        exact ⟨h1, by simp [h2]⟩
      · cases h
      · obtain ⟨h1, h2⟩ := ih _ _ _ m2 k2 t2 h
        exact ⟨h1, by simp [h2]⟩

lemma tryKeys_no_check (orc : Oracle) (model : String) :
    ∀ (ks : List String) (t : ℚ) (s : Stats) (c : Cooldowns) (m2 : String) (t2 : ℚ)
      (e2 : Option ℚ), Ev.check m2 t2 e2 ∉ (tryKeys orc model ks t s c).evs := by
  intro ks
  induction ks with
  | nil => intro t s c m2 t2 e2 h; simp [tryKeys_nil] at h
  | cons k ks ih =>
    intro t s c m2 t2 e2 h
    cases hres : orc.result model k with
    | ok cap text =>
      rw [tryKeys_cons_ok orc model k ks t s c cap text hres] at h
      simp at h
    | err =>
      rw [tryKeys_cons_err orc model k ks t s c hres] at h
      simp only [List.mem_cons] at h
      rcases h with h | h | h
      · cases h
      · cases h
      · exact ih _ _ _ m2 t2 e2 h

lemma tryKeys_none (orc : Oracle) (model : String) :
    ∀ (ks : List String) (t : ℚ) (s : Stats) (c : Cooldowns),
      (tryKeys orc model ks t s c).res = none →
      (tryKeys orc model ks t s c).stats = s ∧
      (∀ s1, Ev.saveStats s1 ∉ (tryKeys orc model ks t s c).evs) ∧
      attemptsOn model (tryKeys orc model ks t s c).evs = ks ∧
      (∀ k ∈ ks, orc.result model k = CallResult.err) := by
  intro ks
  induction ks with
  | nil =>
    intro t s c _
    refine ⟨rfl, ?_, rfl, by simp⟩
    intro s1 h
    simp [tryKeys_nil] at h
  | cons k ks ih =>
    intro t s c hres
    cases hr : orc.result model k with
    | ok cap text =>
      rw [tryKeys_cons_ok orc model k ks t s c cap text hr] at hres
      simp at hres
    | err =>
      rw [tryKeys_cons_err orc model k ks t s c hr] at hres
      rw [tryKeys_cons_err orc model k ks t s c hr]
      simp only at hres ⊢
      obtain ⟨h1, h2, h3, h4⟩ := ih _ _ _ hres
      refine ⟨h1, ?_, ?_, ?_⟩
      · intro s1 hmem
        simp only [List.mem_cons] at hmem
        rcases hmem with h | h | h
        · cases h
        · cases h
        · exact h2 s1 h
      · rw [attemptsOn_cons_self, attemptsOn_cons_saveCooldowns, h3]
      · intro k2 hk2
        rcases List.mem_cons.mp hk2 with rfl | hk2
        · exact hr
        · exact h4 k2 hk2

lemma tryKeys_some (orc : Oracle) (model : String) :
    ∀ (ks : List String) (t : ℚ) (s : Stats) (c : Cooldowns) (lat : ℚ) (cap : ℕ)
      (text : String),
      (tryKeys orc model ks t s c).res = some (lat, cap, text) →
      ∃ k t2 pre,
        (tryKeys orc model ks t s c).evs
          = pre ++ [Ev.attempt model k t2,
                    Ev.saveStats (statsAppend s model ⟨1, lat, cap⟩)] ∧
        orc.result model k = CallResult.ok cap text ∧
        lat = orc.dur model k ∧
        (tryKeys orc model ks t s c).stats = statsAppend s model ⟨1, lat, cap⟩ ∧
        (∀ s1, Ev.saveStats s1 ∉ pre) ∧ k ∈ ks := by
  intro ks
  induction ks with
  | nil => intro t s c lat cap text h; simp [tryKeys_nil] at h
  | cons k ks ih =>
    intro t s c lat cap text hres
    cases hr : orc.result model k with
    | ok cap2 text2 =>
      rw [tryKeys_cons_ok orc model k ks t s c cap2 text2 hr] at hres
      simp only [Option.some_inj, Prod.mk.injEq] at hres
      obtain ⟨h1, h2, h3⟩ := hres
      subst h2
      subst h3
      subst h1
      refine ⟨k, t, [], ?_, hr, rfl, ?_, by simp, by simp⟩
      · simp [tryKeys_cons_ok orc model k ks t s c cap2 text2 hr]
      · simp [tryKeys_cons_ok orc model k ks t s c cap2 text2 hr]
    | err =>
      rw [tryKeys_cons_err orc model k ks t s c hr] at hres
      simp only at hres
      obtain ⟨k2, t2, pre, hevs, hok, hlat, hst, hpre, hkmem⟩ := ih _ _ _ lat cap text hres
      refine ⟨k2, t2,
        Ev.attempt model k t ::
          Ev.saveCooldowns (setAssoc c model (t + orc.dur model k + COOLDOWN_SECS)) :: pre,
        ?_, hok, hlat, ?_, ?_, by simp [hkmem]⟩
      · rw [tryKeys_cons_err orc model k ks t s c hr]
        simp only [List.cons_append]
        rw [hevs]
      · rw [tryKeys_cons_err orc model k ks t s c hr]
        simpa using hst
      · intro s1 hmem
        simp only [List.mem_cons] at hmem
        rcases hmem with h | h | h
        · cases h
        · cases h
        · exact hpre s1 h

lemma tryKeys_attemptsOn_pre (orc : Oracle) (model : String) :
    ∀ (ks : List String) (t : ℚ) (s : Stats) (c : Cooldowns),
      ∃ tail, attemptsOn model (tryKeys orc model ks t s c).evs ++ tail = ks := by
  intro ks
  induction ks with
  | nil => intro t s c; exact ⟨[], by simp [tryKeys_nil, attemptsOn]⟩
  | cons k ks ih =>
    intro t s c
    cases hr : orc.result model k with
    | ok cap text =>
      refine ⟨ks, ?_⟩
      rw [tryKeys_cons_ok orc model k ks t s c cap text hr]
      simp only
      rw [show [Ev.attempt model k t,
            Ev.saveStats (statsAppend s model ⟨1, orc.dur model k, cap⟩)]
          = [Ev.attempt model k t] ++ [Ev.saveStats (statsAppend s model ⟨1, orc.dur model k, cap⟩)]
          from rfl, attemptsOn_append, attemptsOn_cons_self, attemptsOn_cons_saveStats]
      simp [attemptsOn]
    | err =>
      obtain ⟨tail, htail⟩ := ih (t + orc.dur model k) s
        (setAssoc c model (t + orc.dur model k + COOLDOWN_SECS))
      refine ⟨tail, ?_⟩
      rw [tryKeys_cons_err orc model k ks t s c hr]
      simp only
      rw [attemptsOn_cons_self, attemptsOn_cons_saveCooldowns]
      simp [htail]

lemma tryKeys_pairs_sublist (orc : Oracle) (model : String) :
    ∀ (ks : List String) (t : ℚ) (s : Stats) (c : Cooldowns),
      List.Sublist (attemptPairs (tryKeys orc model ks t s c).evs)
        (ks.map (fun k => (model, k))) := by
  intro ks
  induction ks with
  | nil => intro t s c; simp [tryKeys_nil, attemptPairs]
  | cons k ks ih =>
    intro t s c
    cases hr : orc.result model k with
    | ok cap text =>
      rw [tryKeys_cons_ok orc model k ks t s c cap text hr]
      simp only [List.map_cons, attemptPairs, List.filterMap]
      simp
    | err =>
      rw [tryKeys_cons_err orc model k ks t s c hr]
      simp only [List.map_cons]
      have : attemptPairs (Ev.attempt model k t ::
          Ev.saveCooldowns (setAssoc c model (t + orc.dur model k + COOLDOWN_SECS)) ::
          (tryKeys orc model ks (t + orc.dur model k) s
            (setAssoc c model (t + orc.dur model k + COOLDOWN_SECS))).evs)
          = (model, k) :: attemptPairs (tryKeys orc model ks (t + orc.dur model k) s
            (setAssoc c model (t + orc.dur model k + COOLDOWN_SECS))).evs := by
        simp [attemptPairs]
      rw [this]
      exact List.Sublist.cons₂ _ (ih _ _ _)

lemma tryKeys_last_not_attempt (orc : Oracle) (model : String) :
    ∀ (ks : List String) (t : ℚ) (s : Stats) (c : Cooldowns) (m2 k2 : String) (t2 : ℚ),
      (tryKeys orc model ks t s c).evs.getLast? ≠ some (Ev.attempt m2 k2 t2) := by
  intro ks
  induction ks with
  | nil => intro t s c m2 k2 t2; simp [tryKeys_nil]
  | cons k ks ih =>
    intro t s c m2 k2 t2
    cases hr : orc.result model k with
    | ok cap text =>
      rw [tryKeys_cons_ok orc model k ks t s c cap text hr]
      simp
    | err =>
      rw [tryKeys_cons_err orc model k ks t s c hr]
      simp only
      cases hevs : (tryKeys orc model ks (t + orc.dur model k) s
          (setAssoc c model (t + orc.dur model k + COOLDOWN_SECS))).evs with
      | nil => simp
      | cons e rest =>
        have h2 := ih (t + orc.dur model k) s
          (setAssoc c model (t + orc.dur model k + COOLDOWN_SECS)) m2 k2 t2
        rw [hevs] at h2
        rw [List.getLast?_cons_cons, List.getLast?_cons_cons]
        exact h2

lemma failFollowed_nil (orc : Oracle) : FailFollowed orc [] := by
  intro i m k t hi
  simp at hi

lemma failFollowed_cons (orc : Oracle) (e : Ev) (evs : List Ev)
    (h1 : FailFollowed orc evs)
    (h2 : ∀ m k t, e = Ev.attempt m k t → orc.result m k = CallResult.err →
      ∃ cd, evs.head? = some (Ev.saveCooldowns cd) ∧
        assocGet m cd = some (t + orc.dur m k + COOLDOWN_SECS)) :
    FailFollowed orc (e :: evs) := by
  intro i m k t hi herr
  cases i with
  | zero =>
    simp only [List.get?] at hi
    injection hi with he
    obtain ⟨cd, hcd, hg⟩ := h2 m k t he herr
    refine ⟨cd, ?_, hg⟩
    show evs.get? 0 = some (Ev.saveCooldowns cd)
    cases evs with
    | nil => simp at hcd
    | cons f fs => simpa using hcd
  | succ j =>
    have := h1 j m k t (by simpa using hi) herr
    simpa using this

lemma failFollowed_append (orc : Oracle) (evs1 evs2 : List Ev)
    (h1 : FailFollowed orc evs1) (h2 : FailFollowed orc evs2)
    (hlast : ∀ m k t, evs1.getLast? ≠ some (Ev.attempt m k t)) :
    FailFollowed orc (evs1 ++ evs2) := by
  intro i m k t hi herr
  rcases Nat.lt_or_ge i evs1.length with hlt | hge
  · have hin : evs1.get? i = some (Ev.attempt m k t) := by
      rw [List.get?_append hlt] at hi
      exact hi
    rcases Nat.lt_or_ge (i + 1) evs1.length with hlt2 | hge2
    · obtain ⟨cd, hcd, hg⟩ := h1 i m k t hin herr
      exact ⟨cd, by rw [List.get?_append hlt2]; exact hcd, hg⟩
    · have heq : i = evs1.length - 1 := by omega
      have hlast2 : evs1.getLast? = some (Ev.attempt m k t) := by
        rw [List.getLast?_eq_get?, ← heq]
        exact hin
      exact absurd hlast2 (hlast m k t)
  · have hin : evs2.get? (i - evs1.length) = some (Ev.attempt m k t) := by
      rw [List.get?_append_right hge] at hi
      exact hi
    obtain ⟨cd, hcd, hg⟩ := h2 _ m k t hin herr
    refine ⟨cd, ?_, hg⟩
    rw [List.get?_append_right (by omega)]
    rw [show i + 1 - evs1.length = (i - evs1.length) + 1 by omega]
    exact hcd

lemma tryKeys_failFollowed (orc : Oracle) (model : String) :
    ∀ (ks : List String) (t : ℚ) (s : Stats) (c : Cooldowns),
      FailFollowed orc (tryKeys orc model ks t s c).evs := by
  intro ks
  induction ks with
  | nil => intro t s c; rw [tryKeys_nil]; exact failFollowed_nil orc
  | cons k ks ih =>
    intro t s c
    cases hr : orc.result model k with
    | ok cap text =>
      rw [tryKeys_cons_ok orc model k ks t s c cap text hr]
      simp only
      apply failFollowed_cons
      · apply failFollowed_cons
        · exact failFollowed_nil orc
        · intro m2 k2 t2 h
          cases h
      · intro m2 k2 t2 h herr
        injection h with e1 e2 e3
        subst e1
        subst e2
        rw [hr] at herr
        cases herr
    | err =>
      rw [tryKeys_cons_err orc model k ks t s c hr]
      simp only
      apply failFollowed_cons
      · apply failFollowed_cons
        · exact ih _ _ _
        · intro m2 k2 t2 h
          cases h
      · intro m2 k2 t2 h herr
        injection h with e1 e2 e3
        subst e1
        subst e2
        subst e3
        exact ⟨setAssoc c model (t + orc.dur model k + COOLDOWN_SECS), by simp,
          assocGet_setAssoc _ _ _⟩

/-! ## Candidate-walk lemmas -/

lemma walk_nil (orc : Oracle) (keys : List String) (t : ℚ) (s : Stats) (c : Cooldowns) :
    walk orc keys [] t s c = ⟨[], RouteResult.noBackend, s, c⟩ := rfl

lemma walk_cons_cooling (orc : Oracle) (keys : List String) (m : String) (ms : List String)
    (t : ℚ) (s : Stats) (c : Cooldowns) (h : isCooling c m t = true) :
    walk orc keys (m :: ms) t s c =
      ⟨Ev.check m t (assocGet m c) :: (walk orc keys ms t s c).evs,
       (walk orc keys ms t s c).res, (walk orc keys ms t s c).stats,
       (walk orc keys ms t s c).cds⟩ := by
  simp [walk, h]

lemma walk_cons_some (orc : Oracle) (keys : List String) (m : String) (ms : List String)
    (t : ℚ) (s : Stats) (c : Cooldowns) (lat : ℚ) (cap : ℕ) (text : String)
    (h : isCooling c m t = false)
    (hres : (tryKeys orc m keys t s c).res = some (lat, cap, text)) :
    walk orc keys (m :: ms) t s c =
      ⟨Ev.check m t (assocGet m c) :: (tryKeys orc m keys t s c).evs,
       RouteResult.success m lat cap text,
       (tryKeys orc m keys t s c).stats, (tryKeys orc m keys t s c).cds⟩ := by
  simp [walk, h, hres]

lemma walk_cons_none (orc : Oracle) (keys : List String) (m : String) (ms : List String)
    (t : ℚ) (s : Stats) (c : Cooldowns)
    (h : isCooling c m t = false)
    (hres : (tryKeys orc m keys t s c).res = none) :
    walk orc keys (m :: ms) t s c =
      ⟨Ev.check m t (assocGet m c) ::
         ((tryKeys orc m keys t s c).evs ++
           (walk orc keys ms (tryKeys orc m keys t s c).t
             (tryKeys orc m keys t s c).stats (tryKeys orc m keys t s c).cds).evs),
       (walk orc keys ms (tryKeys orc m keys t s c).t
         (tryKeys orc m keys t s c).stats (tryKeys orc m keys t s c).cds).res,
       (walk orc keys ms (tryKeys orc m keys t s c).t
         (tryKeys orc m keys t s c).stats (tryKeys orc m keys t s c).cds).stats,
       (walk orc keys ms (tryKeys orc m keys t s c).t
         (tryKeys orc m keys t s c).stats (tryKeys orc m keys t s c).cds).cds⟩ := by
  simp [walk, h, hres]

lemma walk_attempt_mem (orc : Oracle) (keys : List String) :
    ∀ (order : List String) (t : ℚ) (s : Stats) (c : Cooldowns) (m2 k2 : String) (t2 : ℚ),
      Ev.attempt m2 k2 t2 ∈ (walk orc keys order t s c).evs → m2 ∈ order ∧ k2 ∈ keys := by
  intro order
  induction order with
  | nil => intro t s c m2 k2 t2 h; simp [walk_nil] at h
  | cons m ms ih =>
    intro t s c m2 k2 t2 h
    cases hcool : isCooling c m t with
    | true =>
      rw [walk_cons_cooling orc keys m ms t s c hcool] at h
      simp only [List.mem_cons] at h
      rcases h with h | h
      · cases h
      · obtain ⟨h1, h2⟩ := ih t s c m2 k2 t2 h
        exact ⟨by simp [h1], h2⟩
    | false =>
      cases hres : (tryKeys orc m keys t s c).res with
      | some v =>
        obtain ⟨lat, cap, text⟩ := v
        rw [walk_cons_some orc keys m ms t s c lat cap text hcool hres] at h
        simp only [List.mem_cons] at h
        rcases h with h | h
        · cases h
        · obtain ⟨h1, h2⟩ := tryKeys_attempt_mem orc m keys t s c m2 k2 t2 h
          exact ⟨by simp [h1], h2⟩
      | none =>
        rw [walk_cons_none orc keys m ms t s c hcool hres] at h
        simp only [List.mem_cons, List.mem_append] at h
        rcases h with h | h | h
        · cases h
        · obtain ⟨h1, h2⟩ := tryKeys_attempt_mem orc m keys t s c m2 k2 t2 h
          exact ⟨by simp [h1], h2⟩
        · obtain ⟨h1, h2⟩ := ih _ _ _ m2 k2 t2 h
          exact ⟨by simp [h1], h2⟩

lemma walk_check_mem (orc : Oracle) (keys : List String) :
    ∀ (order : List String) (t : ℚ) (s : Stats) (c : Cooldowns) (m2 : String) (t2 : ℚ)
      (e2 : Option ℚ),
      Ev.check m2 t2 e2 ∈ (walk orc keys order t s c).evs → m2 ∈ order := by
  intro order
  induction order with
  | nil => intro t s c m2 t2 e2 h; simp [walk_nil] at h
  | cons m ms ih =>
    intro t s c m2 t2 e2 h
    cases hcool : isCooling c m t with
    | true =>
      rw [walk_cons_cooling orc keys m ms t s c hcool] at h
      simp only [List.mem_cons] at h
      rcases h with h | h
      · injection h with h1 h2 h3
        simp [h1]
      · simp [ih t s c m2 t2 e2 h]
    | false =>
      cases hres : (tryKeys orc m keys t s c).res with
      | some v =>
        obtain ⟨lat, cap, text⟩ := v
        rw [walk_cons_some orc keys m ms t s c lat cap text hcool hres] at h
        simp only [List.mem_cons] at h
        rcases h with h | h
        · injection h with h1 h2 h3
          simp [h1]
        · exact absurd h (tryKeys_no_check orc m keys t s c m2 t2 e2)
      | none =>
        rw [walk_cons_none orc keys m ms t s c hcool hres] at h
        simp only [List.mem_cons, List.mem_append] at h
        rcases h with h | h | h
        · injection h with h1 h2 h3
          simp [h1]
        · exact absurd h (tryKeys_no_check orc m keys t s c m2 t2 e2)
        · simp [ih _ _ _ m2 t2 e2 h]

lemma walk_noBackend (orc : Oracle) (keys : List String) :
    ∀ (order : List String) (t : ℚ) (s : Stats) (c : Cooldowns),
      (walk orc keys order t s c).res = RouteResult.noBackend →
      (walk orc keys order t s c).stats = s ∧
      (∀ s1, Ev.saveStats s1 ∉ (walk orc keys order t s c).evs) := by
  intro order
  induction order with
  | nil =>
    intro t s c _
    exact ⟨rfl, by intro s1 h; simp [walk_nil] at h⟩
  | cons m ms ih =>
    intro t s c hres
    cases hcool : isCooling c m t with
    | true =>
      rw [walk_cons_cooling orc keys m ms t s c hcool] at hres ⊢
      simp only at hres ⊢
      obtain ⟨h1, h2⟩ := ih t s c hres
      refine ⟨h1, ?_⟩
      intro s1 h
      rcases List.mem_cons.mp h with h | h
      · cases h
      · exact h2 s1 h
    | false =>
      cases htr : (tryKeys orc m keys t s c).res with
      | some v =>
        obtain ⟨lat, cap, text⟩ := v
        rw [walk_cons_some orc keys m ms t s c lat cap text hcool htr] at hres
        simp at hres
      | none =>
        rw [walk_cons_none orc keys m ms t s c hcool htr] at hres ⊢
        simp only at hres ⊢
        obtain ⟨h1, h2⟩ := ih _ _ _ hres
        obtain ⟨hs, hnos, _, _⟩ := tryKeys_none orc m keys t s c htr
        refine ⟨by rw [h1, hs], ?_⟩
        intro s1 h
        rcases List.mem_cons.mp h with h | h
        · cases h
        · rcases List.mem_append.mp h with h | h
          · exact hnos s1 h
          · exact h2 s1 h

lemma walk_success (orc : Oracle) (keys : List String) :
    ∀ (order : List String) (t : ℚ) (s : Stats) (c : Cooldowns) (m : String) (lat : ℚ)
      (cap : ℕ) (text : String),
      (walk orc keys order t s c).res = RouteResult.success m lat cap text →
      ∃ k t2 pre,
        (walk orc keys order t s c).evs
          = pre ++ [Ev.attempt m k t2, Ev.saveStats (statsAppend s m ⟨1, lat, cap⟩)] ∧
        orc.result m k = CallResult.ok cap text ∧
        lat = orc.dur m k ∧
        (walk orc keys order t s c).stats = statsAppend s m ⟨1, lat, cap⟩ ∧
        (∀ s1, Ev.saveStats s1 ∉ pre) ∧ k ∈ keys ∧ m ∈ order := by
  intro order
  induction order with
  | nil => intro t s c m lat cap text h; simp [walk_nil] at h
  | cons m0 ms ih =>
    intro t s c m lat cap text hres
    cases hcool : isCooling c m0 t with
    | true =>
      rw [walk_cons_cooling orc keys m0 ms t s c hcool] at hres ⊢
      simp only at hres ⊢
      obtain ⟨k, t2, pre, hevs, hok, hlat, hst, hpre, hk, hm⟩ := ih t s c m lat cap text hres
      refine ⟨k, t2, Ev.check m0 t (assocGet m0 c) :: pre, ?_, hok, hlat, hst, ?_,
        hk, by simp [hm]⟩
      · rw [hevs]
        simp
      · intro s1 h
        rcases List.mem_cons.mp h with h | h
        · cases h
        · exact hpre s1 h
    | false =>
      cases htr : (tryKeys orc m0 keys t s c).res with
      | some v =>
        obtain ⟨lat0, cap0, text0⟩ := v
        rw [walk_cons_some orc keys m0 ms t s c lat0 cap0 text0 hcool htr] at hres ⊢
        simp only at hres ⊢
        injection hres with e1 e2 e3 e4
        subst e1
        subst e2
        subst e3
        subst e4
        obtain ⟨k, t2, pre, hevs, hok, hlat, hst, hpre, hk⟩ :=
          tryKeys_some orc m0 keys t s c lat0 cap0 text0 htr
        refine ⟨k, t2, Ev.check m0 t (assocGet m0 c) :: pre, ?_, hok, hlat, hst, ?_,
          hk, by simp⟩
        · rw [hevs]
          simp
        · intro s1 h
          rcases List.mem_cons.mp h with h | h
          · cases h
          · exact hpre s1 h
      | none =>
        rw [walk_cons_none orc keys m0 ms t s c hcool htr] at hres ⊢
        simp only at hres ⊢
        obtain ⟨k, t2, pre, hevs, hok, hlat, hst, hpre, hk, hm⟩ := ih _ _ _ m lat cap text hres
        obtain ⟨hs0, hnos, _, _⟩ := tryKeys_none orc m0 keys t s c htr
        have hst2 : (walk orc keys ms (tryKeys orc m0 keys t s c).t
            (tryKeys orc m0 keys t s c).stats (tryKeys orc m0 keys t s c).cds).stats
            = statsAppend s m ⟨1, lat, cap⟩ := hst.trans (by rw [hs0])
        have hevs2 : (walk orc keys ms (tryKeys orc m0 keys t s c).t
            (tryKeys orc m0 keys t s c).stats (tryKeys orc m0 keys t s c).cds).evs
            = pre ++ [Ev.attempt m k t2, Ev.saveStats (statsAppend s m ⟨1, lat, cap⟩)] :=
          hevs.trans (by rw [hs0])
        refine ⟨k, t2, Ev.check m0 t (assocGet m0 c) :: ((tryKeys orc m0 keys t s c).evs ++ pre),
          ?_, hok, hlat, hst2, ?_, hk, by simp [hm]⟩
        · rw [hevs2]
          simp
        · intro s1 h
          rcases List.mem_cons.mp h with h | h
          · cases h
          · rcases List.mem_append.mp h with h | h
            · exact hnos s1 h
            · exact hpre s1 h

lemma walk_res_cases (orc : Oracle) (keys : List String) :
    ∀ (order : List String) (t : ℚ) (s : Stats) (c : Cooldowns),
      (walk orc keys order t s c).res = RouteResult.noBackend ∨
      ∃ m lat cap text,
        (walk orc keys order t s c).res = RouteResult.success m lat cap text := by
  intro order
  induction order with
  | nil => intro t s c; exact Or.inl rfl
  | cons m ms ih =>
    intro t s c
    cases hcool : isCooling c m t with
    | true =>
      rw [walk_cons_cooling orc keys m ms t s c hcool]
      exact ih t s c
    | false =>
      cases htr : (tryKeys orc m keys t s c).res with
      | some v =>
        obtain ⟨lat, cap, text⟩ := v
        rw [walk_cons_some orc keys m ms t s c lat cap text hcool htr]
        exact Or.inr ⟨m, lat, cap, text, rfl⟩
      | none =>
        rw [walk_cons_none orc keys m ms t s c hcool htr]
        exact ih _ _ _

lemma walk_failFollowed (orc : Oracle) (keys : List String) :
    ∀ (order : List String) (t : ℚ) (s : Stats) (c : Cooldowns),
      FailFollowed orc (walk orc keys order t s c).evs := by
  intro order
  induction order with
  | nil => intro t s c; rw [walk_nil]; exact failFollowed_nil orc
  | cons m ms ih =>
    intro t s c
    cases hcool : isCooling c m t with
    | true =>
      rw [walk_cons_cooling orc keys m ms t s c hcool]
      simp only
      exact failFollowed_cons orc _ _ (ih t s c) (by intro m2 k2 t2 h; cases h)
    | false =>
      cases htr : (tryKeys orc m keys t s c).res with
      | some v =>
        obtain ⟨lat, cap, text⟩ := v
        rw [walk_cons_some orc keys m ms t s c lat cap text hcool htr]
        simp only
        exact failFollowed_cons orc _ _ (tryKeys_failFollowed orc m keys t s c)
          (by intro m2 k2 t2 h; cases h)
      | none =>
        rw [walk_cons_none orc keys m ms t s c hcool htr]
        simp only
        refine failFollowed_cons orc _ _ ?_ (by intro m2 k2 t2 h; cases h)
        exact failFollowed_append orc _ _ (tryKeys_failFollowed orc m keys t s c) (ih _ _ _)
          (tryKeys_last_not_attempt orc m keys t s c)

lemma walk_cooldown_skip (orc : Oracle) (keys : List String) :
    ∀ (order : List String), order.Nodup →
      ∀ (t : ℚ) (s : Stats) (c : Cooldowns) (m : String) (t2 : ℚ) (e : ℚ),
        Ev.check m t2 (some e) ∈ (walk orc keys order t s c).evs → t2 < e →
        ∀ (k : String) (t3 : ℚ), Ev.attempt m k t3 ∉ (walk orc keys order t s c).evs := by
  intro order
  induction order with
  | nil => intro _ t s c m t2 e h; simp [walk_nil] at h
  | cons m0 ms ih =>
    intro hnd t s c m t2 e hcheck hlt k t3 hatt
    have hm0 : m0 ∉ ms := (List.nodup_cons.mp hnd).1
    have hndms : ms.Nodup := (List.nodup_cons.mp hnd).2
    cases hcool : isCooling c m0 t with
    | true =>
      rw [walk_cons_cooling orc keys m0 ms t s c hcool] at hcheck hatt
      simp only [List.mem_cons] at hcheck hatt
      rcases hatt with hatt | hatt
      · cases hatt
      · have hmms : m ∈ ms := (walk_attempt_mem orc keys ms t s c m k t3 hatt).1
        rcases hcheck with hcheck | hcheck
        · injection hcheck with h1 h2 h3
          subst h1
          exact hm0 hmms
        · exact ih hndms t s c m t2 e hcheck hlt k t3 hatt
    | false =>
      cases htr : (tryKeys orc m0 keys t s c).res with
      | some v =>
        obtain ⟨lat, cap, text⟩ := v
        rw [walk_cons_some orc keys m0 ms t s c lat cap text hcool htr] at hcheck hatt
        simp only [List.mem_cons] at hcheck hatt
        rcases hcheck with hcheck | hcheck
        · injection hcheck with h1 h2 h3
          subst h1
          subst h2
          simp only [isCooling] at hcool
          rw [← h3] at hcool
          simp only [decide_eq_false_iff_not] at hcool
          exact hcool hlt
        · exact absurd hcheck (tryKeys_no_check orc m0 keys t s c m t2 (some e))
      | none =>
        rw [walk_cons_none orc keys m0 ms t s c hcool htr] at hcheck hatt
        simp only [List.mem_cons, List.mem_append] at hcheck hatt
        rcases hcheck with hcheck | hcheck | hcheck
        · injection hcheck with h1 h2 h3
          subst h1
          subst h2
          simp only [isCooling] at hcool
          rw [← h3] at hcool
          simp only [decide_eq_false_iff_not] at hcool
          exact hcool hlt
        · exact absurd hcheck (tryKeys_no_check orc m0 keys t s c m t2 (some e))
        · have hmms : m ∈ ms := walk_check_mem orc keys ms _ _ _ m t2 (some e) hcheck
          rcases hatt with hatt | hatt | hatt
          · cases hatt
          · have := (tryKeys_attempt_mem orc m0 keys t s c m k t3 hatt).1
            subst this
            exact hm0 hmms
          · exact ih hndms _ _ _ m t2 e hcheck hlt k t3 hatt

lemma attemptPairs_cons_check (m2 : String) (t : ℚ) (e : Option ℚ) (evs : List Ev) :
    attemptPairs (Ev.check m2 t e :: evs) = attemptPairs evs := by
  simp [attemptPairs]

lemma attemptsOn_eq_nil (m : String) (evs : List Ev)
    (h : ∀ k t, Ev.attempt m k t ∉ evs) : attemptsOn m evs = [] := by
  induction evs with
  | nil => rfl
  | cons e rest ih =>
    have hrest : ∀ k t, Ev.attempt m k t ∉ rest := fun k t hk => h k t (by simp [hk])
    cases e with
    | check m2 t2 e2 =>
      rw [attemptsOn_cons_check]
      exact ih hrest
    | attempt m2 k2 t2 =>
      by_cases hm : m2 = m
      · subst hm
        exact absurd (List.mem_cons_self _ _) (h k2 t2)
      · rw [attemptsOn_cons_other _ _ _ _ _ hm]
        exact ih hrest
    | saveStats s1 =>
      rw [attemptsOn_cons_saveStats]
      exact ih hrest
    | saveCooldowns c1 =>
      rw [attemptsOn_cons_saveCooldowns]
      exact ih hrest

lemma tryKeys_attemptsOn_other (orc : Oracle) (model m : String) (hm : model ≠ m)
    (ks : List String) (t : ℚ) (s : Stats) (c : Cooldowns) :
    attemptsOn m (tryKeys orc model ks t s c).evs = [] := by
  apply attemptsOn_eq_nil
  intro k t3 hk
  exact hm (tryKeys_attempt_mem orc model ks t s c m k t3 hk).1.symm

lemma walk_attemptsOn_notmem (orc : Oracle) (keys : List String) (order : List String)
    (t : ℚ) (s : Stats) (c : Cooldowns) (m : String) (hm : m ∉ order) :
    attemptsOn m (walk orc keys order t s c).evs = [] := by
  apply attemptsOn_eq_nil
  intro k t3 hk
  exact hm (walk_attempt_mem orc keys order t s c m k t3 hk).1

lemma walk_attemptsOn_pre (orc : Oracle) (keys : List String) :
    ∀ (order : List String), order.Nodup →
      ∀ (t : ℚ) (s : Stats) (c : Cooldowns) (m : String),
        ∃ tail, attemptsOn m (walk orc keys order t s c).evs ++ tail = keys := by
  intro order
  induction order with
  | nil => intro _ t s c m; exact ⟨keys, by simp [walk_nil, attemptsOn]⟩
  | cons m0 ms ih =>
    intro hnd t s c m
    have hm0 : m0 ∉ ms := (List.nodup_cons.mp hnd).1
    have hndms : ms.Nodup := (List.nodup_cons.mp hnd).2
    cases hcool : isCooling c m0 t with
    | true =>
      rw [walk_cons_cooling orc keys m0 ms t s c hcool]
      simp only
      rw [attemptsOn_cons_check]
      exact ih hndms t s c m
    | false =>
      cases htr : (tryKeys orc m0 keys t s c).res with
      | some v =>
        obtain ⟨lat, cap, text⟩ := v
        rw [walk_cons_some orc keys m0 ms t s c lat cap text hcool htr]
        simp only
        rw [attemptsOn_cons_check]
        by_cases hm : m0 = m
        · subst hm
          exact tryKeys_attemptsOn_pre orc m0 keys t s c
        · rw [tryKeys_attemptsOn_other orc m0 m hm keys t s c]
          exact ⟨keys, by simp⟩
      | none =>
        rw [walk_cons_none orc keys m0 ms t s c hcool htr]
        simp only
        rw [attemptsOn_cons_check, attemptsOn_append]
        by_cases hm : m0 = m
        · subst hm
          obtain ⟨_, _, h3, _⟩ := tryKeys_none orc m0 keys t s c htr
          rw [h3, walk_attemptsOn_notmem orc keys ms _ _ _ m0 hm0]
          exact ⟨[], by simp⟩
        · rw [tryKeys_attemptsOn_other orc m0 m hm keys t s c, List.nil_append]
          exact ih hndms _ _ _ m

lemma walk_all_keys (orc : Oracle) (keys : List String) :
    ∀ (order : List String), order.Nodup →
      ∀ (t : ℚ) (s : Stats) (c : Cooldowns) (m k : String) (t3 : ℚ),
        Ev.attempt m k t3 ∈ (walk orc keys order t s c).evs →
        (∀ lat cap text,
          (walk orc keys order t s c).res ≠ RouteResult.success m lat cap text) →
        attemptsOn m (walk orc keys order t s c).evs = keys := by
  intro order
  induction order with
  | nil => intro _ t s c m k t3 h; simp [walk_nil] at h
  | cons m0 ms ih =>
    intro hnd t s c m k t3 hatt hne
    have hm0 : m0 ∉ ms := (List.nodup_cons.mp hnd).1
    have hndms : ms.Nodup := (List.nodup_cons.mp hnd).2
    cases hcool : isCooling c m0 t with
    | true =>
      rw [walk_cons_cooling orc keys m0 ms t s c hcool] at hatt hne ⊢
      simp only at hatt hne ⊢
      rw [attemptsOn_cons_check]
      rcases List.mem_cons.mp hatt with h | h
      · cases h
      · exact ih hndms t s c m k t3 h hne
    | false =>
      cases htr : (tryKeys orc m0 keys t s c).res with
      | some v =>
        obtain ⟨lat, cap, text⟩ := v
        rw [walk_cons_some orc keys m0 ms t s c lat cap text hcool htr] at hatt hne ⊢
        simp only at hatt hne ⊢
        rcases List.mem_cons.mp hatt with h | h
        · cases h
        · have hmm : m = m0 := (tryKeys_attempt_mem orc m0 keys t s c m k t3 h).1
          subst hmm
          exact absurd rfl (hne lat cap text)
      | none =>
        rw [walk_cons_none orc keys m0 ms t s c hcool htr] at hatt hne ⊢
        simp only at hatt hne ⊢
        rw [attemptsOn_cons_check, attemptsOn_append]
        rcases List.mem_cons.mp hatt with h | h
        · cases h
        · rcases List.mem_append.mp h with h | h
          · have hmm : m = m0 := (tryKeys_attempt_mem orc m0 keys t s c m k t3 h).1
            subst hmm
            obtain ⟨_, _, h3, _⟩ := tryKeys_none orc m keys t s c htr
            rw [h3, walk_attemptsOn_notmem orc keys ms _ _ _ m hm0]
            simp
          · by_cases hmm : m0 = m
            · subst hmm
              exact absurd ((walk_attempt_mem orc keys ms _ _ _ m0 k t3 h).1) hm0
            · rw [tryKeys_attemptsOn_other orc m0 m hmm keys t s c, List.nil_append]
              exact ih hndms _ _ _ m k t3 h hne

lemma walk_pairs_sublist (orc : Oracle) (keys : List String) :
    ∀ (order : List String) (t : ℚ) (s : Stats) (c : Cooldowns),
      List.Sublist (attemptPairs (walk orc keys order t s c).evs)
        (order.bind (fun m => keys.map (fun k => (m, k)))) := by
  intro order
  induction order with
  | nil => intro t s c; simp [walk_nil, attemptPairs]
  | cons m0 ms ih =>
    intro t s c
    have hbind : (m0 :: ms).bind (fun m => keys.map (fun k => (m, k)))
        = keys.map (fun k => (m0, k)) ++ ms.bind (fun m => keys.map (fun k => (m, k))) := by
      simp
    rw [hbind]
    cases hcool : isCooling c m0 t with
    | true =>
      rw [walk_cons_cooling orc keys m0 ms t s c hcool]
      simp only
      rw [attemptPairs_cons_check]
      exact (ih t s c).trans (List.sublist_append_right _ _)
    | false =>
      cases htr : (tryKeys orc m0 keys t s c).res with
      | some v =>
        obtain ⟨lat, cap, text⟩ := v
        rw [walk_cons_some orc keys m0 ms t s c lat cap text hcool htr]
        simp only
        rw [attemptPairs_cons_check]
        exact (tryKeys_pairs_sublist orc m0 keys t s c).trans (List.sublist_append_left _ _)
      | none =>
        rw [walk_cons_none orc keys m0 ms t s c hcool htr]
        simp only
        rw [attemptPairs_cons_check, attemptPairs_append]
        exact List.Sublist.append (tryKeys_pairs_sublist orc m0 keys t s c) (ih _ _ _)

/-! ## Candidate-order lemmas -/

lemma mem_keys_unique (mt : List (String × Tiers)) (hmt : (mt.map Prod.fst).Nodup)
    (p q : String × Tiers) (hp : p ∈ mt) (hq : q ∈ mt) (h : p.1 = q.1) : p = q := by
  induction mt with
  | nil => simp at hp
  | cons r rest ih =>
    have hcons : (r.1 :: rest.map Prod.fst).Nodup := by
      rw [← List.map_cons]
      exact hmt
    have hr : r.1 ∉ rest.map Prod.fst := (List.nodup_cons.mp hcons).1
    have hnd2 : (rest.map Prod.fst).Nodup := (List.nodup_cons.mp hcons).2
    rcases List.mem_cons.mp hp with hp1 | hp1
    · rcases List.mem_cons.mp hq with hq1 | hq1
      · rw [hp1, hq1]
      · exfalso
        apply hr
        have hrq : r.1 = q.1 := by rw [← hp1]; exact h
        rw [hrq]
        exact List.mem_map_of_mem Prod.fst hq1
    · rcases List.mem_cons.mp hq with hq1 | hq1
      · exfalso
        apply hr
        have hrp : r.1 = p.1 := by rw [← hq1]; exact h.symm
        rw [hrp]
        exact List.mem_map_of_mem Prod.fst hp1
      · exact ih hnd2 hp1 hq1

lemma order_foldl_sub (mt : List (String × Tiers)) :
    ∀ (ts : List String) (ord : List String) (x : String), x ∈ ord →
      x ∈ ts.foldl (fun ord tier =>
        ord ++ (mt.filter (fun p => p.2.balance == tier && !(ord.contains p.1))).map
          Prod.fst) ord := by
  intro ts
  induction ts with
  | nil => intro ord x h; exact h
  | cons tier ts ih =>
    intro ord x h
    rw [List.foldl_cons]
    exact ih _ x (List.mem_append_left _ h)

lemma order_foldl_mem (mt : List (String × Tiers)) :
    ∀ (ts : List String) (ord : List String) (x : String),
      x ∈ ts.foldl (fun ord tier =>
        ord ++ (mt.filter (fun p => p.2.balance == tier && !(ord.contains p.1))).map
          Prod.fst) ord →
      x ∈ ord ∨ x ∈ mt.map Prod.fst := by
  intro ts
  induction ts with
  | nil => intro ord x h; exact Or.inl h
  | cons tier ts ih =>
    intro ord x h
    rw [List.foldl_cons] at h
    rcases ih _ x h with h2 | h2
    · rcases List.mem_append.mp h2 with h3 | h3
      · exact Or.inl h3
      · right
        rw [List.mem_map] at h3
        obtain ⟨p, hp, rfl⟩ := h3
        exact List.mem_map_of_mem Prod.fst (List.mem_of_mem_filter hp)
    · exact Or.inr h2

lemma order_foldl_complete (mt : List (String × Tiers)) :
    ∀ (ts : List String) (ord : List String) (p : String × Tiers), p ∈ mt →
      p.2.balance ∈ ts →
      p.1 ∈ ts.foldl (fun ord tier =>
        ord ++ (mt.filter (fun p => p.2.balance == tier && !(ord.contains p.1))).map
          Prod.fst) ord := by
  intro ts
  induction ts with
  | nil => intro ord p _ h; simp at h
  | cons tier ts ih =>
    intro ord p hp hbal
    rw [List.foldl_cons]
    rcases List.mem_cons.mp hbal with hb | hb
    · by_cases hin : p.1 ∈ ord
      · exact order_foldl_sub mt ts _ p.1 (List.mem_append_left _ hin)
      · apply order_foldl_sub mt ts _ p.1
        apply List.mem_append_right
        apply List.mem_map_of_mem Prod.fst
        rw [List.mem_filter]
        refine ⟨hp, ?_⟩
        rw [Bool.and_eq_true, beq_iff_eq]
        refine ⟨hb, ?_⟩
        simpa using hin
    · exact ih _ p hp hb

lemma order_foldl_nodup (mt : List (String × Tiers))
    (hmt : (mt.map Prod.fst).Nodup) :
    ∀ (ts : List String) (ord : List String), ord.Nodup →
      (ts.foldl (fun ord tier =>
        ord ++ (mt.filter (fun p => p.2.balance == tier && !(ord.contains p.1))).map
          Prod.fst) ord).Nodup := by
  intro ts
  induction ts with
  | nil => intro ord h; exact h
  | cons tier ts ih =>
    intro ord hord
    rw [List.foldl_cons]
    apply ih
    apply List.Nodup.append hord
    · exact List.Nodup.sublist (List.Sublist.map Prod.fst (List.filter_sublist mt)) hmt
    · intro a ha hb
      rw [List.mem_map] at hb
      obtain ⟨p, hp, rfl⟩ := hb
      rw [List.mem_filter, Bool.and_eq_true] at hp
      have := hp.2.2
      simp only [Bool.not_eq_true'] at this
      rw [← Bool.not_eq_true] at this
      apply this
      simpa using ha

lemma order_foldl_init (mt : List (String × Tiers)) :
    ∀ (ts : List String) (ord : List String),
      ∃ rest, ts.foldl (fun ord tier =>
        ord ++ (mt.filter (fun p => p.2.balance == tier && !(ord.contains p.1))).map
          Prod.fst) ord = ord ++ rest := by
  intro ts
  induction ts with
  | nil => intro ord; exact ⟨[], by simp⟩
  | cons tier ts ih =>
    intro ord
    rw [List.foldl_cons]
    obtain ⟨rest, hrest⟩ := ih
      (ord ++ (mt.filter (fun p => p.2.balance == tier && !(ord.contains p.1))).map Prod.fst)
    exact ⟨(mt.filter (fun p => p.2.balance == tier && !(ord.contains p.1))).map Prod.fst
      ++ rest, by rw [hrest, List.append_assoc]⟩

lemma filter_balance_widen (mt : List (String × Tiers)) (hmt : (mt.map Prod.fst).Nodup)
    (init done : List String) (tier : String) (htier : tier ∉ done) :
    mt.filter (fun p => p.2.balance == tier &&
      !((init ++ done.bind (fun t2 =>
          (mt.filter (fun q => q.2.balance == t2 && !(init.contains q.1))).map
            Prod.fst)).contains p.1))
      = mt.filter (fun p => p.2.balance == tier && !(init.contains p.1)) := by
  apply List.filter_congr
  intro p hp
  by_cases hbal : p.2.balance = tier
  · have hb : (p.2.balance == tier) = true := by rw [beq_iff_eq]; exact hbal
    simp only [hb, Bool.true_and]
    have hnotbind : p.1 ∉ done.bind (fun t2 =>
        (mt.filter (fun q => q.2.balance == t2 && !(init.contains q.1))).map Prod.fst) := by
      intro hmem
      rw [List.mem_bind] at hmem
      obtain ⟨t2, ht2, hmem⟩ := hmem
      rw [List.mem_map] at hmem
      obtain ⟨q, hq, hq1⟩ := hmem
      rw [List.mem_filter, Bool.and_eq_true, beq_iff_eq] at hq
      have hpq : q = p := mem_keys_unique mt hmt q p hq.1 hp hq1
      rw [hpq] at hq
      rw [hbal] at hq
      exact htier (hq.2.1 ▸ ht2)
    have hcontains : ((init ++ done.bind (fun t2 =>
        (mt.filter (fun q => q.2.balance == t2 && !(init.contains q.1))).map
          Prod.fst)).contains p.1) = (init.contains p.1) := by
      cases h1 : init.contains p.1 with
      | true =>
        have hmem : p.1 ∈ init := by simpa using h1
        have : p.1 ∈ init ++ done.bind (fun t2 =>
            (mt.filter (fun q => q.2.balance == t2 && !(init.contains q.1))).map Prod.fst) :=
          List.mem_append_left _ hmem
        simpa using this
      | false =>
        have h2 : p.1 ∉ init := by simpa using h1
        have : p.1 ∉ init ++ done.bind (fun t2 =>
            (mt.filter (fun q => q.2.balance == t2 && !(init.contains q.1))).map
              Prod.fst) := by
          rw [List.mem_append]
          rintro (h | h)
          · exact h2 h
          · exact hnotbind h
        simpa using this
    rw [hcontains]
  · have hb : (p.2.balance == tier) = false := by rw [beq_eq_false_iff_ne]; exact hbal
    simp [hb]

lemma order_foldl_group (mt : List (String × Tiers)) (hmt : (mt.map Prod.fst).Nodup) :
    ∀ (ts done init : List String), (done ++ ts).Nodup →
      ts.foldl (fun ord tier =>
          ord ++ (mt.filter (fun p => p.2.balance == tier && !(ord.contains p.1))).map
            Prod.fst)
        (init ++ done.bind (fun tier =>
          (mt.filter (fun p => p.2.balance == tier && !(init.contains p.1))).map Prod.fst))
      = init ++ (done ++ ts).bind (fun tier =>
          (mt.filter (fun p => p.2.balance == tier && !(init.contains p.1))).map
            Prod.fst) := by
  intro ts
  induction ts with
  | nil => intro done init _; simp
  | cons tier ts ih =>
    intro done init hnd
    have htier : tier ∉ done := by
      intro h
      have hdisj : done.Disjoint (tier :: ts) := (List.nodup_append.mp hnd).2.2
      exact hdisj h (List.mem_cons_self _ _)
    simp only [List.foldl_cons]
    rw [filter_balance_widen mt hmt init done tier htier]
    have hstep : (init ++ done.bind (fun t2 =>
          (mt.filter (fun p => p.2.balance == t2 && !(init.contains p.1))).map Prod.fst))
        ++ (mt.filter (fun p => p.2.balance == tier && !(init.contains p.1))).map Prod.fst
        = init ++ (done ++ [tier]).bind (fun t2 =>
          (mt.filter (fun p => p.2.balance == t2 && !(init.contains p.1))).map
            Prod.fst) := by
      simp
    rw [hstep]
    have hnd2 : ((done ++ [tier]) ++ ts).Nodup := by
      rw [List.append_assoc, List.singleton_append]
      exact hnd
    have := ih (done ++ [tier]) init hnd2
    rw [this, List.append_assoc, List.singleton_append]

lemma insSorted_perm (le : α → α → Bool) (x : α) :
    ∀ l : List α, List.Perm (insSorted le x l) (x :: l) := by
  intro l
  induction l with
  | nil => exact List.Perm.refl _
  | cons y ys ih =>
    unfold insSorted
    split
    · exact List.Perm.refl _
    · exact (List.Perm.cons y ih).trans (List.Perm.swap x y ys)

lemma sortedBy_perm (le : α → α → Bool) : ∀ l : List α, List.Perm (sortedBy le l) l := by
  intro l
  induction l with
  | nil => exact List.Perm.refl _
  | cons x xs ih =>
    unfold sortedBy
    exact (insSorted_perm le x (sortedBy le xs)).trans (List.Perm.cons x ih)

lemma assocGet_mem (m : String) (v : α) :
    ∀ l : List (String × α), assocGet m l = some v → (m, v) ∈ l := by
  intro l
  induction l with
  | nil => intro h; simp [assocGet] at h
  | cons p ps ih =>
    intro h
    by_cases hp : p.1 = m
    · simp only [assocGet, if_pos hp] at h
      injection h with h
      have hpv : (m, v) = p := by rw [← hp, ← h]
      rw [hpv]
      exact List.mem_cons_self _ _
    · simp only [assocGet, if_neg hp] at h
      exact List.mem_cons_of_mem _ (ih h)

lemma assocGet_isSome_of_mem (m : String) :
    ∀ l : List (String × α), m ∈ l.map Prod.fst → (assocGet m l).isSome := by
  intro l
  induction l with
  | nil => intro h; simp at h
  | cons p ps ih =>
    intro h
    by_cases hp : p.1 = m
    · simp [assocGet, hp]
    · rw [List.map_cons, List.mem_cons] at h
      rcases h with h | h
      · exact absurd h.symm hp
      · simp only [assocGet, if_neg hp]
        exact ih h

lemma assign_multi_tiers_keys (stats : Stats) :
    (assign_multi_tiers stats).map Prod.fst = stats.map Prod.fst := by
  unfold assign_multi_tiers
  induction stats with
  | nil => rfl
  | cons p ps ih => simp_all

lemma assign_multi_tiers_balance_mem (stats : Stats) (p : String × Tiers)
    (hp : p ∈ assign_multi_tiers stats) :
    p.2.balance ∈ ["S", "A", "B", "C"] := by
  unfold assign_multi_tiers at hp
  rw [List.mem_map] at hp
  obtain ⟨q, hq, rfl⟩ := hp
  simp only
  have hmapkeys : (stats.map (fun p => (p.1, computeMetric p.2))).map Prod.fst
      = stats.map Prod.fst := by
    induction stats with
    | nil => rfl
    | cons r rs ih => simp_all
  set metrics := stats.map (fun p => (p.1, computeMetric p.2)) with hmet
  set rl := sortedBy balanceKeyLe metrics with hrl
  have hq1 : q.1 ∈ metrics.map Prod.fst := by
    rw [hmapkeys]
    exact List.mem_map_of_mem Prod.fst hq
  have hq2 : q.1 ∈ rl.map Prod.fst :=
    ((sortedBy_perm balanceKeyLe metrics).map Prod.fst).mem_iff.mpr hq1
  have hq3 : q.1 ∈ (tier_rank rl).map Prod.fst := by
    rw [(tier_rank_partition rl).1]
    exact hq2
  have hsome := assocGet_isSome_of_mem q.1 _ hq3
  cases hv : assocGet q.1 (tier_rank rl) with
  | none => rw [hv] at hsome; simp at hsome
  | some v =>
    rw [Option.getD_some]
    have hmem := assocGet_mem q.1 v _ hv
    have := (tier_rank_partition rl).2.1 (q.1, v) hmem
    simpa using this

lemma lockList_nodup (lock : Option String) : (lockList lock).Nodup := by
  cases lock with
  | none => simp [lockList]
  | some s =>
    by_cases h : s = "" <;> simp [lockList, h]

lemma buildOrder_nodup (lock : Option String) (mt : List (String × Tiers))
    (hmt : (mt.map Prod.fst).Nodup) : (buildOrder lock mt).Nodup := by
  unfold buildOrder
  exact order_foldl_nodup mt hmt _ _ (lockList_nodup lock)

lemma buildOrder_eq_group (lock : Option String) (mt : List (String × Tiers))
    (hmt : (mt.map Prod.fst).Nodup) :
    buildOrder lock mt = lockList lock ++ (["S", "A", "B", "C"]).bind (fun tier =>
      (mt.filter (fun p => p.2.balance == tier && !((lockList lock).contains p.1))).map
        Prod.fst) := by
  unfold buildOrder
  have h := order_foldl_group mt hmt ["S", "A", "B", "C"] [] (lockList lock) (by decide)
  simpa using h

lemma buildOrder_mem_iff (lock : Option String) (stats : Stats)
    (x : String) :
    x ∈ buildOrder lock (assign_multi_tiers stats) ↔
      x ∈ lockList lock ∨ x ∈ stats.map Prod.fst := by
  have hkeys := assign_multi_tiers_keys stats
  constructor
  · intro h
    unfold buildOrder at h
    rcases order_foldl_mem _ _ _ x h with h | h
    · exact Or.inl h
    · right
      rw [← hkeys]
      exact h
  · intro h
    rcases h with h | h
    · unfold buildOrder
      exact order_foldl_sub _ _ _ x h
    · rw [← hkeys] at h
      rw [List.mem_map] at h
      obtain ⟨p, hp, rfl⟩ := h
      unfold buildOrder
      exact order_foldl_complete _ _ _ p hp (assign_multi_tiers_balance_mem stats p hp)

/-- The candidate order as the spec's words describe it: the locked backend
first, then the backends grouped by blended tier S, A, B, C, where within a
tier backends follow the classifier's blended-sorted (tie-broken) order,
skipping any backend already placed. -/
def specCandidateOrder (lock : Option String) (stats : Stats) : List String :=
  let metrics := stats.map (fun p => (p.1, computeMetric p.2))
  let balance_rank := sortedBy balanceKeyLe metrics
  let ranked := tier_rank balance_rank
  (["S", "A", "B", "C"]).foldl
    (fun ord tier =>
      ord ++ (ranked.filter (fun p => p.2 == tier && !(ord.contains p.1))).map Prod.fst)
    (lockList lock)

/-- The amended candidate order: the locked backend first, then for each
blended tier S, A, B, C in turn the backends of that tier in metrics-store
iteration order, skipping the locked backend. -/
def amendedCandidateOrder (lock : Option String) (stats : Stats) : List String :=
  lockList lock ++ (["S", "A", "B", "C"]).bind (fun tier =>
    ((assign_multi_tiers stats).filter
      (fun p => p.2.balance == tier && !((lockList lock).contains p.1))).map Prod.fst)

/-! ## Route-level helpers -/

lemma route_request_ne (orc : Oracle) (keys : List String) (raw : Stats)
    (lock : Option String) (cds : Cooldowns) (t0 : ℚ) (h : ¬ keys = []) :
    route_request orc keys raw lock cds t0 =
      walk orc keys (buildOrder lock (assign_multi_tiers (load_stats raw)))
        t0 (load_stats raw) cds := by
  simp [route_request, h]

lemma load_stats_keys (raw : Stats) :
    (load_stats raw).map Prod.fst = raw.map Prod.fst := by
  unfold load_stats
  induction raw with
  | nil => rfl
  | cons p ps ih => simp_all

lemma route_order_nodup (raw : Stats) (lock : Option String)
    (hnd : (raw.map Prod.fst).Nodup) :
    (buildOrder lock (assign_multi_tiers (load_stats raw))).Nodup := by
  apply buildOrder_nodup
  rw [assign_multi_tiers_keys, load_stats_keys]
  exact hnd

/-! ## Claim theorems -/

/-- C10: the backends a routing call can attempt are exactly the keys of
the loaded metrics store plus the (truthy) locked backend: every attempted
backend is one of these, every one of these is in the candidate order, and
with an empty metrics store and no lock the call observes no events at all
(in particular performs no remote invocation) and fails with
`NoBackendAvailable` (given a nonempty credential list). -/
theorem route_known_backends (orc : Oracle) (keys : List String) (raw : Stats)
    (lock : Option String) (cds : Cooldowns) (t0 : ℚ) :
    (∀ m k t2, Ev.attempt m k t2 ∈ (route_request orc keys raw lock cds t0).evs →
      m ∈ raw.map Prod.fst ∨ m ∈ lockList lock) ∧
    (∀ m, m ∈ buildOrder lock (assign_multi_tiers (load_stats raw)) ↔
      m ∈ lockList lock ∨ m ∈ raw.map Prod.fst) ∧
    (raw = [] → lockList lock = [] → ¬ keys = [] →
      (route_request orc keys raw lock cds t0).evs = [] ∧
      (route_request orc keys raw lock cds t0).res = RouteResult.noBackend) := by
  refine ⟨?_, ?_, ?_⟩
  · intro m k t2 h
    by_cases hk : keys = []
    · simp [route_request, hk] at h
    · rw [route_request_ne orc keys raw lock cds t0 hk] at h
      have hmem := (walk_attempt_mem orc keys _ t0 (load_stats raw) cds m k t2 h).1
      rcases (buildOrder_mem_iff lock (load_stats raw) m).mp hmem with h2 | h2
      · exact Or.inr h2
      · rw [load_stats_keys] at h2
        exact Or.inl h2
  · intro m
    rw [buildOrder_mem_iff lock (load_stats raw) m, load_stats_keys]
  · intro hraw hlock hk
    subst hraw
    have horder : buildOrder lock (assign_multi_tiers (load_stats [])) = [] := by
      rw [buildOrder_eq_group lock _ (by simp [load_stats, assign_multi_tiers]), hlock]
      simp [load_stats, assign_multi_tiers]
    rw [route_request_ne orc keys [] lock cds t0 hk, horder, walk_nil]
    exact ⟨rfl, rfl⟩

/-- Witness for C10: empty store, no lock, one credential. -/
theorem route_known_backends_witness :
    (route_request ⟨fun _ _ => CallResult.ok 0 "hi", fun _ _ => 1⟩ ["k"] [] none [] 0).evs
        = [] ∧
    (route_request ⟨fun _ _ => CallResult.ok 0 "hi", fun _ _ => 1⟩ ["k"] [] none [] 0).res
        = RouteResult.noBackend :=
  (route_known_backends ⟨fun _ _ => CallResult.ok 0 "hi", fun _ _ => 1⟩ ["k"] [] none
    [] 0).2.2 rfl rfl (by simp)

/-- C8: a routing call in which every actually attempted (backend,
credential) invocation fails — which covers every candidate being skipped
for cooldown or failing with all credentials — ends in `NoBackendAvailable`,
leaves the metrics store exactly as loaded and performs no metrics-store
persist. -/
theorem route_exhaustion (orc : Oracle) (keys : List String) (raw : Stats)
    (lock : Option String) (cds : Cooldowns) (t0 : ℚ)
    (hfail : ∀ m k t2, Ev.attempt m k t2 ∈ (route_request orc keys raw lock cds t0).evs →
      orc.result m k = CallResult.err)
    (hkeys : ¬ keys = []) :
    (route_request orc keys raw lock cds t0).res = RouteResult.noBackend ∧
    (route_request orc keys raw lock cds t0).stats = load_stats raw ∧
    (∀ s1, Ev.saveStats s1 ∉ (route_request orc keys raw lock cds t0).evs) := by
  rw [route_request_ne orc keys raw lock cds t0 hkeys] at hfail ⊢
  rcases walk_res_cases orc keys (buildOrder lock (assign_multi_tiers (load_stats raw)))
      t0 (load_stats raw) cds with h | ⟨m, lat, cap, text, h⟩
  · obtain ⟨h1, h2⟩ := walk_noBackend orc keys _ t0 (load_stats raw) cds h
    exact ⟨h, h1, h2⟩
  · exfalso
    obtain ⟨k, t2, pre, hevs, hok, _⟩ := walk_success orc keys _ t0 (load_stats raw) cds
      m lat cap text h
    have hmem : Ev.attempt m k t2 ∈ (walk orc keys
        (buildOrder lock (assign_multi_tiers (load_stats raw)))
        t0 (load_stats raw) cds).evs := by
      rw [hevs]
      simp
    have := hfail m k t2 hmem
    rw [hok] at this
    cases this

/-- Witness for C8: one backend, two failing credentials. -/
theorem route_exhaustion_witness :
    (route_request ⟨fun _ _ => CallResult.err, fun _ _ => 1⟩ ["k1", "k2"] [("a", [])]
        none [] 0).res = RouteResult.noBackend ∧
    (route_request ⟨fun _ _ => CallResult.err, fun _ _ => 1⟩ ["k1", "k2"] [("a", [])]
        none [] 0).stats = load_stats [("a", [])] ∧
    (∀ s1, Ev.saveStats s1 ∉ (route_request ⟨fun _ _ => CallResult.err, fun _ _ => 1⟩
        ["k1", "k2"] [("a", [])] none [] 0).evs) :=
  route_exhaustion ⟨fun _ _ => CallResult.err, fun _ _ => 1⟩ ["k1", "k2"] [("a", [])]
    none [] 0 (fun _ _ _ _ => rfl) (by simp)

/-- C3: when a routing call succeeds, its trace ends with the successful
attempt immediately followed by exactly one metrics-store persist; the
final store is the loaded store with exactly one record
`{success=1, latency, capacity}` appended to the winning backend's window;
the returned latency is the attempt's elapsed time and the returned
capacity/text are the invocation's; nothing is attempted after the success,
and every cooldown persist of the call happened strictly before the
successful attempt (a success writes no cooldown). -/
theorem route_success_effects (orc : Oracle) (keys : List String) (raw : Stats)
    (lock : Option String) (cds : Cooldowns) (t0 : ℚ) (m : String) (lat : ℚ)
    (cap : ℕ) (text : String)
    (h : (route_request orc keys raw lock cds t0).res = RouteResult.success m lat cap text) :
    ∃ k t2 pre,
      (route_request orc keys raw lock cds t0).evs
        = pre ++ [Ev.attempt m k t2,
                  Ev.saveStats (statsAppend (load_stats raw) m ⟨1, lat, cap⟩)] ∧
      orc.result m k = CallResult.ok cap text ∧
      lat = orc.dur m k ∧
      (route_request orc keys raw lock cds t0).stats
        = statsAppend (load_stats raw) m ⟨1, lat, cap⟩ ∧
      (∀ s1, Ev.saveStats s1 ∈ (route_request orc keys raw lock cds t0).evs →
        s1 = statsAppend (load_stats raw) m ⟨1, lat, cap⟩) ∧
      (∀ c1, Ev.saveCooldowns c1 ∈ (route_request orc keys raw lock cds t0).evs →
        Ev.saveCooldowns c1 ∈ pre) ∧
      k ∈ keys := by
  by_cases hk : keys = []
  · rw [route_request] at h
    simp [hk] at h
  · rw [route_request_ne orc keys raw lock cds t0 hk] at h ⊢
    obtain ⟨k, t2, pre, hevs, hok, hlat, hst, hpre, hkmem, _⟩ :=
      walk_success orc keys _ t0 (load_stats raw) cds m lat cap text h
    refine ⟨k, t2, pre, hevs, hok, hlat, hst, ?_, ?_, hkmem⟩
    · intro s1 hs1
      rw [hevs] at hs1
      rcases List.mem_append.mp hs1 with h2 | h2
      · exact absurd h2 (hpre s1)
      · simpa using h2
    · intro c1 hc1
      rw [hevs] at hc1
      rcases List.mem_append.mp hc1 with h2 | h2
      · exact h2
      · simp at h2

/-- Witness for C3: one backend with one credential succeeding. -/
theorem route_success_effects_witness :
    ∃ k t2 pre,
      (route_request ⟨fun _ _ => CallResult.ok 0 "hi", fun _ _ => 1⟩ ["k"] [("a", [])]
          none [] 0).evs
        = pre ++ [Ev.attempt "a" k t2,
                  Ev.saveStats (statsAppend (load_stats [("a", [])]) "a" ⟨1, 1, 0⟩)] ∧
      (⟨fun _ _ => CallResult.ok 0 "hi", fun _ _ => 1⟩ : Oracle).result "a" k
        = CallResult.ok 0 "hi" ∧
      (1 : ℚ) = (⟨fun _ _ => CallResult.ok 0 "hi", fun _ _ => 1⟩ : Oracle).dur "a" k ∧
      (route_request ⟨fun _ _ => CallResult.ok 0 "hi", fun _ _ => 1⟩ ["k"] [("a", [])]
          none [] 0).stats
        = statsAppend (load_stats [("a", [])]) "a" ⟨1, 1, 0⟩ ∧
      (∀ s1, Ev.saveStats s1 ∈ (route_request ⟨fun _ _ => CallResult.ok 0 "hi",
          fun _ _ => 1⟩ ["k"] [("a", [])] none [] 0).evs →
        s1 = statsAppend (load_stats [("a", [])]) "a" ⟨1, 1, 0⟩) ∧
      (∀ c1, Ev.saveCooldowns c1 ∈ (route_request ⟨fun _ _ => CallResult.ok 0 "hi",
          fun _ _ => 1⟩ ["k"] [("a", [])] none [] 0).evs →
        Ev.saveCooldowns c1 ∈ pre) ∧
      k ∈ ["k"] :=
  route_success_effects ⟨fun _ _ => CallResult.ok 0 "hi", fun _ _ => 1⟩ ["k"] [("a", [])]
    none [] 0 "a" 1 0 "hi"
    (by norm_num [route_request, walk, tryKeys, buildOrder, assign_multi_tiers,
      computeMetric, sortedBy, insSorted, tier_rank, tierOf, assocGet, List.enum,
      lockList, load_stats, loadWindow, isCooling])

/-- C2: a backend whose stored cooldown expiry is strictly later than the
time at which the walk reaches it (the recorded check event) is never
attempted by the routing call, whatever its tier and whether or not it is
the locked backend. -/
theorem route_cooldown_respected (orc : Oracle) (keys : List String) (raw : Stats)
    (lock : Option String) (cds : Cooldowns) (t0 : ℚ)
    (hnd : (raw.map Prod.fst).Nodup) (m : String) (t2 e : ℚ)
    (hcheck : Ev.check m t2 (some e) ∈ (route_request orc keys raw lock cds t0).evs)
    (hlt : t2 < e) (k : String) (t3 : ℚ) :
    Ev.attempt m k t3 ∉ (route_request orc keys raw lock cds t0).evs := by
  by_cases hk : keys = []
  · rw [route_request] at hcheck
    simp [hk] at hcheck
  · rw [route_request_ne orc keys raw lock cds t0 hk] at hcheck ⊢
    exact walk_cooldown_skip orc keys _ (route_order_nodup raw lock hnd)
      t0 (load_stats raw) cds m t2 e hcheck hlt k t3

/-- Witness for C2: the single backend is cooling down at walk time, so
even a would-succeed invocation is never attempted. -/
theorem route_cooldown_respected_witness :
    Ev.attempt "a" "k" 0 ∉ (route_request ⟨fun _ _ => CallResult.ok 0 "hi",
      fun _ _ => 1⟩ ["k"] [("a", [])] none [("a", 100)] 0).evs :=
  route_cooldown_respected ⟨fun _ _ => CallResult.ok 0 "hi", fun _ _ => 1⟩ ["k"]
    [("a", [])] none [("a", 100)] 0 (by simp) "a" 0 100
    (by norm_num [route_request, walk, tryKeys, buildOrder, assign_multi_tiers,
      computeMetric, sortedBy, insSorted, tier_rank, tierOf, assocGet, List.enum,
      lockList, load_stats, loadWindow, isCooling])
    (by norm_num) "k" 0

/-- C9: within one routing call no (backend, credential) pair is attempted
twice: the sequence of attempted pairs, in trace order, has no duplicates —
also when the locked backend reappears in the tiered ordering — provided
the store's backend keys and the credential list are themselves free of
duplicates. -/
theorem route_no_duplicate_attempts (orc : Oracle) (keys : List String) (raw : Stats)
    (lock : Option String) (cds : Cooldowns) (t0 : ℚ)
    (hnd : (raw.map Prod.fst).Nodup) (hk : keys.Nodup) :
    (attemptPairs (route_request orc keys raw lock cds t0).evs).Nodup := by
  by_cases hke : keys = []
  · simp [route_request, hke, attemptPairs]
  · rw [route_request_ne orc keys raw lock cds t0 hke]
    apply List.Nodup.sublist
      (walk_pairs_sublist orc keys _ t0 (load_stats raw) cds)
    apply List.nodup_bind.mpr
    constructor
    · intro m _
      exact hk.map (fun k1 k2 h => by injection h)
    · apply List.Pairwise.imp ?_ (route_order_nodup raw lock hnd)
      intro m m2 hne
      intro a ha hb
      rw [List.mem_map] at ha hb
      obtain ⟨k1, _, hk1⟩ := ha
      obtain ⟨k2, _, hk2⟩ := hb
      apply hne
      rw [← hk2] at hk1
      injection hk1

/-- Witness for C9: two credentials, one backend, both attempts fail. -/
theorem route_no_duplicate_attempts_witness :
    (attemptPairs (route_request ⟨fun _ _ => CallResult.err, fun _ _ => 1⟩
      ["k1", "k2"] [("a", [])] none [] 0).evs).Nodup :=
  route_no_duplicate_attempts ⟨fun _ _ => CallResult.err, fun _ _ => 1⟩
    ["k1", "k2"] [("a", [])] none [] 0 (by simp) (by simp)

/-- C4: failure handling of a routing call: every failed attempt is
immediately followed by a cooldown persist whose entry for that backend is
the post-call time plus `COOLDOWN_SECS` (so the registry is persisted on
every failure, not just the final one); a call that ends exhausted leaves
the metrics store untouched and never persists it; the credentials tried on
any backend form a prefix of the configured credential list; and any
attempted backend that is not the winning one was tried with every
credential before the walk moved on. -/
theorem route_failure_handling (orc : Oracle) (keys : List String) (raw : Stats)
    (lock : Option String) (cds : Cooldowns) (t0 : ℚ)
    (hnd : (raw.map Prod.fst).Nodup) :
    FailFollowed orc (route_request orc keys raw lock cds t0).evs ∧
    ((route_request orc keys raw lock cds t0).res = RouteResult.noBackend →
      (route_request orc keys raw lock cds t0).stats = load_stats raw ∧
      ∀ s1, Ev.saveStats s1 ∉ (route_request orc keys raw lock cds t0).evs) ∧
    (∀ m, ∃ tail, attemptsOn m (route_request orc keys raw lock cds t0).evs ++ tail
      = keys) ∧
    (∀ m k t3, Ev.attempt m k t3 ∈ (route_request orc keys raw lock cds t0).evs →
      (∀ lat cap text, (route_request orc keys raw lock cds t0).res
        ≠ RouteResult.success m lat cap text) →
      attemptsOn m (route_request orc keys raw lock cds t0).evs = keys) := by
  by_cases hke : keys = []
  · subst hke
    have heval : route_request orc [] raw lock cds t0
        = ⟨[], RouteResult.noCredentials, load_stats raw, cds⟩ := by
      simp [route_request]
    rw [heval]
    refine ⟨failFollowed_nil orc, ?_, ?_, ?_⟩
    · intro h
      exact absurd h (by simp)
    · intro m
      exact ⟨[], by simp [attemptsOn]⟩
    · intro m k t3 h
      simp at h
  · rw [route_request_ne orc keys raw lock cds t0 hke]
    have hndord := route_order_nodup raw lock hnd
    refine ⟨walk_failFollowed orc keys _ t0 (load_stats raw) cds, ?_, ?_, ?_⟩
    · exact walk_noBackend orc keys _ t0 (load_stats raw) cds
    · exact fun m => walk_attemptsOn_pre orc keys _ hndord t0 (load_stats raw) cds m
    · exact fun m k t3 hatt hne =>
        walk_all_keys orc keys _ hndord t0 (load_stats raw) cds m k t3 hatt hne

/-- Witness for C4: one backend, two failing credentials; project out the
full conjunction at that run. -/
theorem route_failure_handling_witness :
    FailFollowed ⟨fun _ _ => CallResult.err, fun _ _ => 1⟩
      (route_request ⟨fun _ _ => CallResult.err, fun _ _ => 1⟩ ["k1", "k2"]
        [("a", [])] none [] 0).evs ∧
    ((route_request ⟨fun _ _ => CallResult.err, fun _ _ => 1⟩ ["k1", "k2"]
        [("a", [])] none [] 0).res = RouteResult.noBackend →
      (route_request ⟨fun _ _ => CallResult.err, fun _ _ => 1⟩ ["k1", "k2"]
        [("a", [])] none [] 0).stats = load_stats [("a", [])] ∧
      ∀ s1, Ev.saveStats s1 ∉ (route_request ⟨fun _ _ => CallResult.err, fun _ _ => 1⟩
        ["k1", "k2"] [("a", [])] none [] 0).evs) ∧
    (∀ m, ∃ tail, attemptsOn m (route_request ⟨fun _ _ => CallResult.err, fun _ _ => 1⟩
      ["k1", "k2"] [("a", [])] none [] 0).evs ++ tail = ["k1", "k2"]) ∧
    (∀ m k t3, Ev.attempt m k t3 ∈ (route_request ⟨fun _ _ => CallResult.err,
        fun _ _ => 1⟩ ["k1", "k2"] [("a", [])] none [] 0).evs →
      (∀ lat cap text, (route_request ⟨fun _ _ => CallResult.err, fun _ _ => 1⟩
        ["k1", "k2"] [("a", [])] none [] 0).res
        ≠ RouteResult.success m lat cap text) →
      attemptsOn m (route_request ⟨fun _ _ => CallResult.err, fun _ _ => 1⟩
        ["k1", "k2"] [("a", [])] none [] 0).evs = ["k1", "k2"]) :=
  route_failure_handling ⟨fun _ _ => CallResult.err, fun _ _ => 1⟩ ["k1", "k2"]
    [("a", [])] none [] 0 (by simp)

set_option maxHeartbeats 1600000 in
/-- C1 counterexample: on a five-backend store whose blended scores order
the two tier-A backends opposite to their store order, the code's candidate
order lists the tier-A backends in metrics-store order (q before r), while
the claimed order lists them in blended-sorted order (r before q): the two
orders differ. -/
theorem candidate_order_counterexample :
    buildOrder none (assign_multi_tiers (load_stats
      [("p", [⟨1, 1, 0⟩]), ("q", [⟨1, 20, 0⟩]), ("r", [⟨1, 10, 0⟩]),
       ("s", [⟨1, 30, 0⟩]), ("u", [⟨1, 40, 0⟩])]))
      = ["p", "q", "r", "s", "u"] ∧
    specCandidateOrder none (load_stats
      [("p", [⟨1, 1, 0⟩]), ("q", [⟨1, 20, 0⟩]), ("r", [⟨1, 10, 0⟩]),
       ("s", [⟨1, 30, 0⟩]), ("u", [⟨1, 40, 0⟩])])
      = ["p", "r", "q", "s", "u"] ∧
    buildOrder none (assign_multi_tiers (load_stats
      [("p", [⟨1, 1, 0⟩]), ("q", [⟨1, 20, 0⟩]), ("r", [⟨1, 10, 0⟩]),
       ("s", [⟨1, 30, 0⟩]), ("u", [⟨1, 40, 0⟩])]))
      ≠ specCandidateOrder none (load_stats
      [("p", [⟨1, 1, 0⟩]), ("q", [⟨1, 20, 0⟩]), ("r", [⟨1, 10, 0⟩]),
       ("s", [⟨1, 30, 0⟩]), ("u", [⟨1, 40, 0⟩])]) := by
  have h1 : buildOrder none (assign_multi_tiers (load_stats
      [("p", [⟨1, 1, 0⟩]), ("q", [⟨1, 20, 0⟩]), ("r", [⟨1, 10, 0⟩]),
       ("s", [⟨1, 30, 0⟩]), ("u", [⟨1, 40, 0⟩])]))
      = ["p", "q", "r", "s", "u"] := by
    norm_num [buildOrder, assign_multi_tiers, computeMetric, scoreOf, balanceKeyLe,
      fastKeyLe, qualityKeyLe, Flt.le, sortedBy, insSorted, tier_rank, tierOf,
      assocGet, List.enum, lockList, List.filter, load_stats, loadWindow,
      ROLLING_WINDOW]
    simp
  have h2 : specCandidateOrder none (load_stats
      [("p", [⟨1, 1, 0⟩]), ("q", [⟨1, 20, 0⟩]), ("r", [⟨1, 10, 0⟩]),
       ("s", [⟨1, 30, 0⟩]), ("u", [⟨1, 40, 0⟩])])
      = ["p", "r", "q", "s", "u"] := by
    norm_num [specCandidateOrder, computeMetric, scoreOf, balanceKeyLe,
      Flt.le, sortedBy, insSorted, tier_rank, tierOf,
      assocGet, List.enum, lockList, List.filter, load_stats, loadWindow,
      ROLLING_WINDOW]
    simp
  refine ⟨h1, h2, ?_⟩
  rw [h1, h2]
  simp

/-- C1 amended: the candidate order is the (truthy) locked backend first,
then the backends grouped by blended tier S, A, B, C, where within each
tier the backends appear in metrics-store iteration order (not in
blended-sorted order), skipping the locked backend; when a lock is set to
backend X the candidate order starts with X even if X is tier C, and when X
is additionally not cooling down at walk start the routing call's first
attempted pair is (X, first credential). -/
theorem candidate_order_amended (orc : Oracle) (k1 : String) (ks : List String)
    (raw : Stats) (lock : Option String) (cds : Cooldowns) (t0 : ℚ)
    (hnd : (raw.map Prod.fst).Nodup) :
    buildOrder lock (assign_multi_tiers (load_stats raw))
      = amendedCandidateOrder lock (load_stats raw) ∧
    (∀ X, lockList lock = [X] →
      (buildOrder lock (assign_multi_tiers (load_stats raw))).head? = some X) ∧
    (∀ X, lockList lock = [X] → isCooling cds X t0 = false →
      (attemptPairs (route_request orc (k1 :: ks) raw lock cds t0).evs).head?
        = some (X, k1)) := by
  have hmt : ((assign_multi_tiers (load_stats raw)).map Prod.fst).Nodup := by
    rw [assign_multi_tiers_keys, load_stats_keys]
    exact hnd
  refine ⟨?_, ?_, ?_⟩
  · rw [buildOrder_eq_group lock _ hmt]
    rfl
  · intro X hX
    rw [buildOrder_eq_group lock _ hmt, hX]
    rfl
  · intro X hX hcool
    rw [route_request_ne orc (k1 :: ks) raw lock cds t0 (by simp)]
    obtain ⟨rest, hrest⟩ : ∃ rest,
        buildOrder lock (assign_multi_tiers (load_stats raw)) = X :: rest := by
      rw [buildOrder_eq_group lock _ hmt, hX]
      exact ⟨_, rfl⟩
    rw [hrest]
    cases htr : (tryKeys orc X (k1 :: ks) t0 (load_stats raw) cds).res with
    | some v =>
      obtain ⟨lat, cap, text⟩ := v
      rw [walk_cons_some orc (k1 :: ks) X rest t0 (load_stats raw) cds lat cap text
        hcool htr]
      simp only
      rw [attemptPairs_cons_check]
      cases hr : orc.result X k1 with
      | ok cap2 text2 =>
        rw [tryKeys_cons_ok orc X k1 ks t0 (load_stats raw) cds cap2 text2 hr]
        simp [attemptPairs]
      | err =>
        rw [tryKeys_cons_err orc X k1 ks t0 (load_stats raw) cds hr]
        simp [attemptPairs]
    | none =>
      rw [walk_cons_none orc (k1 :: ks) X rest t0 (load_stats raw) cds hcool htr]
      simp only
      rw [attemptPairs_cons_check, attemptPairs_append]
      cases hr : orc.result X k1 with
      | ok cap2 text2 =>
        rw [tryKeys_cons_ok orc X k1 ks t0 (load_stats raw) cds cap2 text2 hr]
        simp [attemptPairs]
      | err =>
        rw [tryKeys_cons_err orc X k1 ks t0 (load_stats raw) cds hr]
        simp [attemptPairs]

/-- Witness for the amended C1: with the lock set to a backend that is
absent from the store (hence ranked, if at all, no better than tier C) and
not cooling down, the first attempted pair is the locked backend with the
first credential. -/
theorem candidate_order_amended_witness :
    (attemptPairs (route_request ⟨fun _ _ => CallResult.ok 0 "hi", fun _ _ => 1⟩
      ("k" :: []) [("a", [])] (some "b") [] 0).evs).head? = some ("b", "k") :=
  (candidate_order_amended ⟨fun _ _ => CallResult.ok 0 "hi", fun _ _ => 1⟩ "k" []
    [("a", [])] (some "b") [] 0 (by simp)).2.2 "b" (by decide) rfl

end GeminiRouter
